import Mathlib

/-!
# envreport: the declaration-resolution engine

A shallow embedding of `cmd/envreport/envreport.go`.

* Syntax nodes are addressed: a `*ast.BasicLit` or `*ast.Ident` is a record that
  carries the address of the node next to its payload, so that two nodes with
  the same text are still two map keys, as they are for Go's pointer-keyed maps.
* `DeclarationMap` is `map[string]map[ast.Node]struct{}`: a partial function from
  names to value sets. A value set is a duplicate-free list; a nil inner map and
  an empty inner map are both the empty list (the code only ranges over them or
  replaces a nil one by an empty one).
* `for node := range m { ...; break }` takes an arbitrary member. Every such
  choice reads a cell of an oracle (`Nat → Nat`, the index taken modulo the size
  of the set); theorems quantify over all oracles.
* A runtime panic is `Except.error (Fault.panic msg)`. `getLitForIdent` is
  recursive without a guard, so it takes the admitted call depth as `fuel`;
  `Fault.outOfFuel` says the recursion had not returned within that depth.
* `spew.Dump` output of the dump mode is not modelled.
-/

namespace EnvReport

/-! ## Syntax nodes -/

/-- Address of a literal node: `parsed n` for a node of the parsed forest,
`made n` for the `n`-th literal allocated by `captureDeclaration`. -/
inductive Ptr where
  | parsed (n : Nat)
  | made (n : Nat)
  deriving DecidableEq, Repr

/-- The node `*ast.BasicLit`; `Value` is the raw text, quotes included. -/
structure BasicLit where
  ptr : Ptr
  Value : String
  deriving DecidableEq, Repr

/-- The node `*ast.Ident`. -/
structure Ident where
  ptr : Nat
  Name : String
  deriving DecidableEq, Repr

/-- The part of `ast.Node` the analyzer distinguishes. `other` is any node type
the code has no case for; it carries the Go type name that `reflect.TypeOf`
prints and its children in document order. -/
inductive Node where
  | basicLit (b : BasicLit)
  | ident (i : Ident)
  | selectorExpr (x : Node) (sel : Ident)
  | callExpr (fn : Node) (args : List Node)
  | valueSpec (names : List Ident) (typ : Option Node) (values : Option (List Node))
  | genDecl (specs : List Node)
  | assignStmt (lhs : List Node) (rhs : List Node)
  | other (goType : String) (children : List Node)

/-- The node `*ast.CallExpr`. -/
structure CallExpr where
  Fun : Node
  Args : List Node

/-- The node `*ast.GenDecl`. -/
structure GenDecl where
  Specs : List Node

/-- The node `*ast.AssignStmt`. -/
structure AssignStmt where
  Lhs : List Node
  Rhs : List Node

/-- The string `reflect.TypeOf(v)` formats to under `%s`. -/
def Node.typeName : Node → String
  | .basicLit _ => "*ast.BasicLit"
  | .ident _ => "*ast.Ident"
  | .selectorExpr _ _ => "*ast.SelectorExpr"
  | .callExpr _ _ => "*ast.CallExpr"
  | .valueSpec _ _ _ => "*ast.ValueSpec"
  | .genDecl _ => "*ast.GenDecl"
  | .assignStmt _ _ => "*ast.AssignStmt"
  | .other goType _ => goType

mutual
/-- The nodes `ast.Inspect` hands to its callback, in order (depth first,
a node before its children); the callback of `run` always returns true. -/
def inspect : Node → List Node
  | .basicLit b => [.basicLit b]
  | .ident i => [.ident i]
  | .selectorExpr x sel => .selectorExpr x sel :: (inspect x ++ [.ident sel])
  | .callExpr fn args => .callExpr fn args :: (inspect fn ++ inspectList args)
  | .valueSpec names typ values =>
      .valueSpec names typ values ::
        (names.map Node.ident ++ (inspectOpt typ ++ inspectOptList values))
  | .genDecl specs => .genDecl specs :: inspectList specs
  | .assignStmt lhs rhs => .assignStmt lhs rhs :: (inspectList lhs ++ inspectList rhs)
  | .other goType children => .other goType children :: inspectList children
/-- The visit order of a list of siblings. -/
def inspectList : List Node → List Node
  | [] => []
  | n :: ns => inspect n ++ inspectList ns
/-- The visit order of an optional child. -/
def inspectOpt : Option Node → List Node
  | none => []
  | some n => inspect n
/-- The visit order of a slice of children that may be nil. -/
def inspectOptList : Option (List Node) → List Node
  | none => []
  | some ns => inspectList ns
end

/-! ## The declaration map -/

/-- A member of a value set: an `ast.Node` interface value holding a
`*ast.BasicLit` (possibly the nil pointer, `lit none`) or a `*ast.Ident`.
The code never stores a node of another type. -/
inductive ValNode where
  | lit (p : Option BasicLit)
  | ident (i : Ident)
  deriving DecidableEq, Repr

/-- The type `map[string]map[ast.Node]struct{}`. -/
abbrev DeclarationMap := String → Option (List ValNode)

/-- The statement `m[k] = v`. -/
def DeclarationMap.set (m : DeclarationMap) (k : String) (v : List ValNode) : DeclarationMap :=
  fun k' => if k' = k then some v else m k'

/-- The statement `s[x] = struct{}{}` on a set. -/
def setAdd {α : Type} [DecidableEq α] (s : List α) (x : α) : List α :=
  if x ∈ s then s else s ++ [x]

/-- The member taken by `for x := range s { ...; break }`, if there is one. -/
def rangeFirst {α : Type} (r : Nat) (s : List α) : Option α :=
  s.get? (r % s.length)

/-- What aborts a run. -/
inductive Fault where
  | panic (msg : String)
  | outOfFuel
  deriving DecidableEq, Repr

/-- The runtime error of an index expression on an empty slice. -/
def indexOutOfRange : Fault := .panic "index out of range [0] with length 0"

/-- The runtime error of reading a field through a nil pointer. -/
def nilDereference : Fault := .panic "invalid memory address or nil pointer dereference"

/-- The panic of `run` on an argument it does not support. -/
def todoPanic : Fault :=
  .panic "TODO: capture value if a function like fmt.Sprintf is used to generate the env var"

/-! ## The functions of envreport.go -/

/-- The function `getLitForIdent`; `none` is the nil pointer. -/
def getLitForIdent : Nat → (Nat → Nat) → Ident → DeclarationMap → Except Fault (Option BasicLit)
  | 0, _, _, _ => .error .outOfFuel
  | fuel + 1, rnd, ident, declMap =>
    match declMap ident.Name with
    | none => .ok none
    | some nodeMap =>
      match rangeFirst (rnd 0) nodeMap with
      | none => .ok none
      | some (.lit v) => .ok v
      | some (.ident v) => getLitForIdent fuel (fun n => rnd (n + 1)) v declMap

/-- The function `associateAssignment`. -/
def associateAssignment (fuel : Nat) (rnd : Nat → Nat) (asSt : AssignStmt)
    (declMap : DeclarationMap) : Except Fault DeclarationMap :=
  match asSt.Lhs with
  | [] => .ok declMap
  | .ident lhsIdent :: _ =>
    match declMap lhsIdent.Name with
    | none => .ok declMap
    | some nodeMap =>
      match asSt.Rhs with
      | [] => .error indexOutOfRange
      | .basicLit v :: _ => .ok (declMap.set lhsIdent.Name (setAdd nodeMap (.lit (some v))))
      | .ident v :: _ =>
        match getLitForIdent fuel rnd v declMap with
        | .error e => .error e
        | .ok r => .ok (declMap.set lhsIdent.Name (setAdd nodeMap (.lit r)))
      | _ :: _ => .ok declMap
  | _ :: _ => .ok declMap

/-- The function `foundGetenv`. -/
def foundGetenv (funcCall : CallExpr) : Bool :=
  match funcCall.Fun with
  | .selectorExpr (.ident pkg) sel => pkg.Name == "os" && sel.Name == "Getenv"
  | _ => false

/-- The declaration map together with the number of literals allocated so far. -/
structure Tracker where
  declMap : DeclarationMap
  nextLit : Nat

/-- The text `fmt.Sprintf` builds in `captureDeclaration`. -/
def unexpectedValue (name : String) (v : Node) : String :=
  "expected identifier (" ++ name ++ ") value to be either *ast.BasicLit or *ast.Ident, but got "
    ++ v.typeName

/-- The function `captureDeclaration`. -/
def captureDeclaration (decl : GenDecl) (t : Tracker) : Except Fault Tracker :=
  match decl.Specs with
  | [] => .error indexOutOfRange
  | .valueSpec names _ values :: _ =>
    match names with
    | [] => .error indexOutOfRange
    | ident :: _ =>
      match values with
      | none => .ok ⟨t.declMap.set ident.Name [], t.nextLit⟩
      | some [] => .error indexOutOfRange
      | some (.basicLit v :: _) =>
        .ok ⟨t.declMap.set ident.Name
          (setAdd ((t.declMap ident.Name).getD []) (.lit (some v))), t.nextLit⟩
      | some (.ident v :: _) =>
        .ok ⟨t.declMap.set ident.Name
          (setAdd ((t.declMap ident.Name).getD []) (.ident v)), t.nextLit⟩
      | some (v :: _) =>
        .ok ⟨t.declMap.set ident.Name
          (setAdd ((t.declMap ident.Name).getD [])
            (.lit (some ⟨.made t.nextLit, unexpectedValue ident.Name v⟩))), t.nextLit + 1⟩
  | _ :: _ => .ok t

/-- The variables of `run` that the traversal updates. -/
structure RunState where
  tracker : Tracker
  getenvCalls : List CallExpr

/-- The callback `run` passes to `ast.Inspect`, applied to one node. -/
def visit (dump : Bool) (fuel : Nat) (rnd : Nat → Nat) (n : Node) (st : RunState) :
    Except Fault RunState :=
  if dump then .ok st
  else
    match n with
    | .genDecl specs =>
      match captureDeclaration ⟨specs⟩ st.tracker with
      | .error e => .error e
      | .ok t => .ok ⟨t, st.getenvCalls⟩
    | .assignStmt lhs rhs =>
      match associateAssignment fuel rnd ⟨lhs, rhs⟩ st.tracker.declMap with
      | .error e => .error e
      | .ok m => .ok ⟨⟨m, st.tracker.nextLit⟩, st.getenvCalls⟩
    | .callExpr fn args =>
      if foundGetenv ⟨fn, args⟩ then .ok ⟨st.tracker, st.getenvCalls ++ [⟨fn, args⟩]⟩
      else .ok st
    | _ => .ok st

/-- The callback applied to a sequence of visited nodes; node `i` of the
sequence draws its choices from `rnd i`. -/
def traverse (dump : Bool) (fuel : Nat) :
    (Nat → Nat → Nat) → List Node → RunState → Except Fault RunState
  | _, [], st => .ok st
  | rnd, n :: ns, st =>
    match visit dump fuel (rnd 0) n st with
    | .error e => .error e
    | .ok st' => traverse dump fuel (fun i => rnd (i + 1)) ns st'

/-- The nodes visited by `for _, file := range pass.Files { ast.Inspect(file, ...) }`. -/
def inspectFiles : List Node → List Node
  | [] => []
  | file :: files => inspect file ++ inspectFiles files

/-- The state of `run` before the first file. -/
def RunState.init : RunState := ⟨⟨fun _ => none, 0⟩, []⟩

/-- The first loop of `run`. -/
def collect (dump : Bool) (fuel : Nat) (rnd : Nat → Nat → Nat) (files : List Node) :
    Except Fault RunState :=
  traverse dump fuel rnd (inspectFiles files) RunState.init

/-- The type `map[*ast.BasicLit]struct{}`; `none` is the nil key. -/
abbrev ValMap := List (Option BasicLit)

/-- One iteration of the loop over `getenvCalls`. -/
def resolveCall (fuel : Nat) (rnd : Nat → Nat) (declMap : DeclarationMap) (call : CallExpr)
    (valMap : ValMap) : Except Fault ValMap :=
  match call.Args with
  | [] => .error indexOutOfRange
  | .basicLit v :: _ => .ok (setAdd valMap (some v))
  | .ident v :: _ =>
    match rangeFirst (rnd 0) ((declMap v.Name).getD []) with
    | none => .ok valMap
    | some (.lit p) => .ok (setAdd valMap p)
    | some (.ident i) =>
      match getLitForIdent fuel (fun n => rnd (n + 1)) i declMap with
      | .error e => .error e
      | .ok r => .ok (setAdd valMap r)
  | _ :: _ => .error todoPanic

/-- The loop over `getenvCalls`; call `i` draws its choices from `rnd i`. -/
def resolveCalls (fuel : Nat) (declMap : DeclarationMap) :
    (Nat → Nat → Nat) → List CallExpr → ValMap → Except Fault ValMap
  | _, [], valMap => .ok valMap
  | rnd, call :: calls, valMap =>
    match resolveCall fuel (rnd 0) declMap call valMap with
    | .error e => .error e
    | .ok valMap' => resolveCalls fuel declMap (fun i => rnd (i + 1)) calls valMap'

/-- The characters of `s` without the leading characters that are `c`. -/
def trimLeft (c : Char) : List Char → List Char
  | [] => []
  | x :: xs => if x = c then trimLeft c xs else x :: xs

/-- The call `strings.Trim(s, cutset)` for a cutset of one character. -/
def Trim (s : String) (c : Char) : String :=
  String.mk (trimLeft c (trimLeft c s.data).reverse).reverse

/-- The double quote character. -/
def quote : Char := Char.ofNat 34

/-- The order in which `for value := range valMap` yields the keys: the next
key is always an arbitrary one of those left. -/
def rangeOrder {α : Type} : Nat → (Nat → Nat) → List α → List α
  | 0, _, _ => []
  | _ + 1, _, [] => []
  | k + 1, rnd, x :: xs =>
    let i := rnd 0 % (x :: xs).length
    ((x :: xs).get? i).toList ++ rangeOrder k (fun n => rnd (n + 1)) ((x :: xs).eraseIdx i)

/-- What a run leaves behind: the texts written to standard output, one
element for each call of `fmt.Println` (the newline that `Println` appends is
not part of the element; a text that itself holds a newline is still one
element and is more than one line of output, see `RunResult.lineCount`), and
whether the run returned (`.ok ()` is `return nil, nil`) or aborted. -/
structure RunResult where
  stdout : List String
  status : Except Fault Unit

/-- The last loop of `run`, over the keys in the order given: one call of
`fmt.Println` for each key, up to the first nil key. -/
def printAll : List (Option BasicLit) → RunResult
  | [] => ⟨[], .ok ()⟩
  | none :: _ => ⟨[], .error nilDereference⟩
  | some value :: rest =>
    ⟨Trim value.Value quote :: (printAll rest).stdout, (printAll rest).status⟩

/-- The choices of one run: those of the traversal, of the loop over the
collected calls and of the loop that prints. -/
structure Oracle where
  walk : Nat → Nat → Nat
  resolve : Nat → Nat → Nat
  emit : Nat → Nat

/-- The result set `valMap` of `run` once the loop over the calls is through. -/
def resultSet (dump : Bool) (fuel : Nat) (o : Oracle) (files : List Node) : Except Fault ValMap :=
  match collect dump fuel o.walk files with
  | .error e => .error e
  | .ok st => resolveCalls fuel st.tracker.declMap o.resolve st.getenvCalls []

/-- The function `run` on the files of a pass. -/
def run (dump : Bool) (fuel : Nat) (o : Oracle) (files : List Node) : RunResult :=
  match resultSet dump fuel o files with
  | .error e => ⟨[], .error e⟩
  | .ok valMap => printAll (rangeOrder valMap.length o.emit valMap)

/-! ## Vocabulary of the statements -/

/-- The line `fmt.Println(strings.Trim(value.Value, "\""))` writes for a key that is not nil. -/
def lineOf : Option BasicLit → String
  | none => ""
  | some value => Trim value.Value quote

/-- The lookup calls among a sequence of visited nodes, in order. -/
def lookupCalls : List Node → List CallExpr
  | [] => []
  | .callExpr fn args :: ns =>
    if foundGetenv ⟨fn, args⟩ then ⟨fn, args⟩ :: lookupCalls ns else lookupCalls ns
  | _ :: ns => lookupCalls ns

/-- An argument that is neither a literal nor an identifier. -/
def Node.isDynamic : Node → Bool
  | .basicLit _ => false
  | .ident _ => false
  | _ => true

/-- The node is a declaration whose first spec is a value spec with first name
`X`, or an assignment whose first left-hand side is the identifier `X`: the
nodes at which the traversal can touch the entry of `X`. -/
def bindsName (X : String) : Node → Bool
  | .genDecl (.valueSpec (ident :: _) _ _ :: _) => ident.Name == X
  | .assignStmt (.ident lhsIdent :: _) _ => lhsIdent.Name == X
  | _ => false

/-- One operation on the tracker: a call of `captureDeclaration` or a call of
`associateAssignment` (with the call depth and the choices it may use). -/
inductive TrackerOp where
  | capture (decl : GenDecl)
  | assign (fuel : Nat) (rnd : Nat → Nat) (asSt : AssignStmt)

/-- The tracker after one operation. -/
def TrackerOp.apply : TrackerOp → Tracker → Except Fault Tracker
  | .capture decl, t => captureDeclaration decl t
  | .assign fuel rnd asSt, t =>
    match associateAssignment fuel rnd asSt t.declMap with
    | .error e => .error e
    | .ok m => .ok ⟨m, t.nextLit⟩

/-! ## Concrete inputs -/

/-- The raw text of the string literal with content `s`. -/
def quoted (s : String) : String :=
  String.singleton quote ++ s ++ String.singleton quote

/-- The call `os.Getenv(arg)`; `p` and `p + 1` address its two identifiers. -/
def osGetenv (p : Nat) (arg : Node) : Node :=
  .callExpr (.selectorExpr (.ident ⟨p, "os"⟩) ⟨p + 1, "Getenv"⟩) [arg]

/-- The declaration `var name` (no values) or `var name = values`. -/
def varDecl (name : Ident) (values : Option (List Node)) : Node :=
  .genDecl [.valueSpec [name] none values]

/-- The oracle under which every range loop starts at the first member. -/
def firstMember : Oracle := ⟨fun _ _ => 0, fun _ _ => 0, fun _ => 0⟩

/-- A file with `os.Getenv("FOO")` twice, each call with its own literal node. -/
def twoFoo : Node :=
  .other "*ast.File"
    [.other "*ast.ExprStmt" [osGetenv 10 (.basicLit ⟨.parsed 12, quoted "FOO"⟩)],
     .other "*ast.ExprStmt" [osGetenv 20 (.basicLit ⟨.parsed 22, quoted "FOO"⟩)]]

/-- A file with `var a = "BAR"`, then in a function `b := a` and `os.Getenv(b)`. -/
def chainShort : Node :=
  .other "*ast.File"
    [varDecl ⟨1, "a"⟩ (some [.basicLit ⟨.parsed 2, quoted "BAR"⟩]),
     .other "*ast.FuncDecl"
       [.assignStmt [.ident ⟨3, "b"⟩] [.ident ⟨4, "a"⟩],
        .other "*ast.ExprStmt" [osGetenv 5 (.ident ⟨7, "b"⟩)]]]

/-- A file with `var a = lit`, `var b`, then in a function `b := a` (or
`b = a`, the code does not read the token) and `os.Getenv(b)`. -/
def chainTracked (a b : String) (lit : BasicLit) : Node :=
  .other "*ast.File"
    [varDecl ⟨1, a⟩ (some [.basicLit lit]),
     varDecl ⟨2, b⟩ none,
     .other "*ast.FuncDecl"
       [.assignStmt [.ident ⟨3, b⟩] [.ident ⟨4, a⟩],
        .other "*ast.ExprStmt" [osGetenv 5 (.ident ⟨7, b⟩)]]]

/-- A file with a function that holds `var a = b` and `os.Getenv(a)`, where
`b` is not declared with `var` (a parameter, say). -/
def danglingChain : Node :=
  .other "*ast.File"
    [.other "*ast.FuncDecl"
       [.other "*ast.DeclStmt" [varDecl ⟨1, "a"⟩ (some [.ident ⟨2, "b"⟩])],
        .other "*ast.ExprStmt" [osGetenv 3 (.ident ⟨5, "a"⟩)]]]

/-- The declaration map after `var x`. -/
def emptyX : DeclarationMap := DeclarationMap.set (fun _ => none) "x" []

/-- The declaration map after `var a = a`. -/
def selfMap : DeclarationMap := DeclarationMap.set (fun _ => none) "a" [.ident ⟨1, "a"⟩]

/-- The declaration map after `var a = b` and `var b = a`. -/
def mutualMap : DeclarationMap :=
  (DeclarationMap.set (fun _ => none) "a" [.ident ⟨1, "b"⟩]).set "b" [.ident ⟨2, "a"⟩]

/-- The declaration map after `var b = "X"` and `var a = b`. -/
def chainMap : DeclarationMap :=
  (DeclarationMap.set (fun _ => none) "b" [.lit (some ⟨.parsed 1, quoted "X"⟩)]).set "a"
    [.ident ⟨2, "b"⟩]

/-- A rank under which `chainMap` is acyclic. -/
def chainRank (name : String) : Nat := if name = "a" then 1 else 0

/-- A file with `os.Getenv(fmt.Sprintf("X"))`. -/
def dynamicArg : Node :=
  .other "*ast.File"
    [.other "*ast.ExprStmt"
       [osGetenv 1
          (.callExpr (.selectorExpr (.ident ⟨3, "fmt"⟩) ⟨4, "Sprintf"⟩)
            [.basicLit ⟨.parsed 5, quoted "X"⟩])]]

/-- A file with `var X = "literal"` and a function that calls `os.Getenv(X)` twice. -/
def lookedUpTwice : Node :=
  .other "*ast.File"
    [varDecl ⟨1, "X"⟩ (some [.basicLit ⟨.parsed 2, quoted "literal"⟩]),
     .other "*ast.FuncDecl"
       [.other "*ast.ExprStmt" [osGetenv 3 (.ident ⟨5, "X"⟩)],
        .other "*ast.ExprStmt" [osGetenv 6 (.ident ⟨8, "X"⟩)]]]

/-- A file with `var x = one`, then in a function `x = two` and `os.Getenv(x)`. -/
def reassigned (x : String) (one two : BasicLit) : Node :=
  .other "*ast.File"
    [varDecl ⟨1, x⟩ (some [.basicLit one]),
     .other "*ast.FuncDecl"
       [.assignStmt [.ident ⟨3, x⟩] [.basicLit two],
        .other "*ast.ExprStmt" [osGetenv 5 (.ident ⟨7, x⟩)]]]

/-- A file with the empty declaration group `var ()`. -/
def emptyGroup : Node := .other "*ast.File" [.genDecl []]

/-- The declaration `var a, b = "A", "B"`. -/
def twoNames : GenDecl :=
  ⟨[.valueSpec [⟨1, "a"⟩, ⟨2, "b"⟩] none
      (some [.basicLit ⟨.parsed 3, quoted "A"⟩, .basicLit ⟨.parsed 4, quoted "B"⟩])]⟩

/-- A file with `var x = f()` and a function that calls `os.Getenv(x)`. -/
def callInitializer : Node :=
  .other "*ast.File"
    [varDecl ⟨1, "x"⟩ (some [.callExpr (.ident ⟨2, "f"⟩) []]),
     .other "*ast.FuncDecl" [.other "*ast.ExprStmt" [osGetenv 3 (.ident ⟨5, "x"⟩)]]]

/-- A first file whose function calls `os.Getenv(X)`. -/
def lookupFile : Node :=
  .other "*ast.File"
    [.other "*ast.FuncDecl" [.other "*ast.ExprStmt" [osGetenv 1 (.ident ⟨3, "X"⟩)]]]

/-- A second file with `var X = "A"`. -/
def declFile : Node :=
  .other "*ast.File" [varDecl ⟨4, "X"⟩ (some [.basicLit ⟨.parsed 5, quoted "A"⟩])]

/-- The name `b` is reached from the name `a` by following identifier members
of value sets, zero or more times. -/
inductive Reaches (m : DeclarationMap) : String → String → Prop where
  | here (a : String) : Reaches m a a
  | step (a b : String) (s : List ValNode) (i : Ident) :
      m a = some s → ValNode.ident i ∈ s → Reaches m i.Name b → Reaches m a b

/-- The address belongs to a node of the parsed forest. -/
def Ptr.isParsed : Ptr → Bool
  | .parsed _ => true
  | .made _ => false

/-- The literal node that the visit of `n` may store in the declaration map,
if there is one, is a node of the parsed forest. -/
def storesParsed : Node → Bool
  | .genDecl (.valueSpec _ _ (some (.basicLit b :: _)) :: _) => b.ptr.isParsed
  | .assignStmt _ (.basicLit b :: _) => b.ptr.isParsed
  | _ => true

/-- Every allocated literal in the map `m` was allocated before the `N`-th
allocation. -/
def FreshFrom (m : DeclarationMap) (N : Nat) : Prop :=
  ∀ k s b n, m k = some s → ValNode.lit (some b) ∈ s → b.ptr = .made n → n < N

/-- The newline character. -/
def newline : Char := Char.ofNat 10

/-- The number of lines that `fmt.Println(s)` writes: one more than the
newlines in `s`. -/
def lineCount (s : String) : Nat := 1 + s.data.count newline

/-- The number of lines a run wrote to standard output. -/
def RunResult.lineCount (r : RunResult) : Nat := (r.stdout.map EnvReport.lineCount).sum

/-- A file with `var X = "literal"` and two calls `os.Getenv(X)`, followed by
a file that holds the empty declaration group `var ()`. -/
def lookedUpTwiceThenEmptyGroup : List Node := [lookedUpTwice, emptyGroup]

/-- A file with `var X = "literal"` and a function that calls `os.Getenv(X)`,
declares `var a = a` in an inner block and assigns `a = a` there. -/
def lookedUpWithCycle : Node :=
  .other "*ast.File"
    [varDecl ⟨1, "X"⟩ (some [.basicLit ⟨.parsed 2, quoted "literal"⟩]),
     .other "*ast.FuncDecl"
       [.other "*ast.ExprStmt" [osGetenv 3 (.ident ⟨5, "X"⟩)],
        .other "*ast.BlockStmt"
          [.other "*ast.DeclStmt" [varDecl ⟨6, "a"⟩ (some [.ident ⟨7, "a"⟩])],
           .assignStmt [.ident ⟨8, "a"⟩] [.ident ⟨9, "a"⟩]]]]

/-- A file with `os.Getenv("A")` followed by `os.Getenv(fmt.Sprintf("X"))`. -/
def literalThenDynamic : Node :=
  .other "*ast.File"
    [.other "*ast.ExprStmt" [osGetenv 10 (.basicLit ⟨.parsed 12, quoted "A"⟩)],
     .other "*ast.ExprStmt"
       [osGetenv 1
          (.callExpr (.selectorExpr (.ident ⟨3, "fmt"⟩) ⟨4, "Sprintf"⟩)
            [.basicLit ⟨.parsed 5, quoted "X"⟩])]]

/-- The text of the raw string literal that holds `a`, a newline and `b`
between its two backquotes. -/
def rawTwoLines : String :=
  String.mk [Char.ofNat 96, Char.ofNat 97, newline, Char.ofNat 98, Char.ofNat 96]

/-- A file with one lookup call whose argument is the raw string literal
`rawTwoLines`. -/
def rawLookup : Node :=
  .other "*ast.File"
    [.other "*ast.ExprStmt" [osGetenv 1 (.basicLit ⟨.parsed 3, rawTwoLines⟩)]]

/-! ## Lemmas -/

theorem get_eraseIdx_perm {α : Type} (l : List α) (i : Nat) (h : i < l.length) :
    ((l.get? i).toList ++ l.eraseIdx i).Perm l := by
  induction l generalizing i with
  | nil => simp at h
  | cons x xs ih =>
    cases i with
    | zero => simp
    | succ i =>
      have hi : i < xs.length := by simpa using h
      simp only [List.get?_cons_succ, List.eraseIdx_cons_succ]
      exact List.perm_middle.trans ((ih i hi).cons x)

theorem length_eraseIdx_lt {α : Type} (l : List α) (i k : Nat) (h : i < l.length)
    (hk : l.length = k + 1) : (l.eraseIdx i).length = k := by
  rw [List.length_eraseIdx, if_pos h, hk]
  rfl

/-- Ranging over a set yields every member once, in some order. -/
theorem rangeOrder_perm {α : Type} (k : Nat) (rnd : Nat → Nat) (s : List α) (h : s.length = k) :
    (rangeOrder k rnd s).Perm s := by
  induction k generalizing rnd s with
  | zero =>
    have : s = [] := List.length_eq_zero.mp h
    subst this
    simp [rangeOrder]
  | succ k ih =>
    cases s with
    | nil => simp at h
    | cons x xs =>
      simp only [rangeOrder]
      have hlt : rnd 0 % (x :: xs).length < (x :: xs).length := Nat.mod_lt _ (by simp)
      generalize rnd 0 % (x :: xs).length = i at hlt
      have hlen := length_eraseIdx_lt (x :: xs) i k hlt h
      exact ((ih (fun n => rnd (n + 1)) _ hlen).append_left _).trans
        (get_eraseIdx_perm (x :: xs) i hlt)

/-- The loop that prints aborts when a nil key is among the keys. -/
theorem printAll_status_of_mem_none (l : List (Option BasicLit)) (h : none ∈ l) :
    (printAll l).status = .error nilDereference := by
  induction l with
  | nil => simp at h
  | cons x xs ih =>
    cases x with
    | none => rfl
    | some v =>
      have : none ∈ xs := by simpa using h
      simpa [printAll] using ih this

/-- Without a nil key the loop that prints writes one line per key and returns. -/
theorem printAll_of_not_mem_none (l : List (Option BasicLit)) (h : none ∉ l) :
    printAll l = ⟨l.map lineOf, .ok ()⟩ := by
  induction l with
  | nil => rfl
  | cons x xs ih =>
    cases x with
    | none => simp at h
    | some v =>
      have : none ∉ xs := by
        intro hx
        exact h (List.mem_cons_of_mem _ hx)
      simp [printAll, ih this, lineOf]

theorem setAdd_nodup {α : Type} [DecidableEq α] (s : List α) (x : α) (h : s.Nodup) :
    (setAdd s x).Nodup := by
  unfold setAdd
  split
  · exact h
  · rename_i hx
    exact List.Nodup.append h (List.nodup_singleton x) (by simpa using hx)

theorem mem_setAdd {α : Type} [DecidableEq α] (s : List α) (x y : α) :
    y ∈ setAdd s x ↔ y ∈ s ∨ y = x := by
  unfold setAdd
  split
  · rename_i hx
    constructor
    · exact Or.inl
    · rintro (h | h)
      · exact h
      · exact h ▸ hx
  · simp

/-- The lookup calls of a sequence are its call nodes that `foundGetenv` accepts. -/
theorem mem_lookupCalls (ns : List Node) (fn : Node) (args : List Node) :
    (⟨fn, args⟩ : CallExpr) ∈ lookupCalls ns ↔
      Node.callExpr fn args ∈ ns ∧ foundGetenv ⟨fn, args⟩ = true := by
  induction ns with
  | nil => simp [lookupCalls]
  | cons n ns ih =>
    cases n <;> simp [lookupCalls, ih]
    rename_i fn' args'
    cases hf : foundGetenv ⟨fn', args'⟩ with
    | true =>
      simp only [if_true, List.mem_cons, CallExpr.mk.injEq, ih]
      constructor
      · rintro (⟨h1, h2⟩ | ⟨h1, h2⟩)
        · subst h1 h2
          exact ⟨Or.inl ⟨rfl, rfl⟩, hf⟩
        · exact ⟨Or.inr h1, h2⟩
      · rintro ⟨(⟨h1, h2⟩ | h1), h2'⟩
        · exact Or.inl ⟨h1, h2⟩
        · exact Or.inr ⟨h1, h2'⟩
    | false =>
      simp only [Bool.false_eq_true, if_false, ih]
      constructor
      · rintro ⟨h1, h2⟩
        exact ⟨Or.inr h1, h2⟩
      · rintro ⟨(⟨h1, h2⟩ | h1), h2'⟩
        · subst h1 h2
          rw [hf] at h2'
          cases h2'
        · exact ⟨h1, h2'⟩

theorem visit_getenvCalls (fuel : Nat) (rnd : Nat → Nat) (n : Node) (st st' : RunState)
    (h : visit false fuel rnd n st = .ok st') :
    st'.getenvCalls = st.getenvCalls ++ lookupCalls [n] := by
  cases n <;> simp [visit, lookupCalls] at h ⊢
  case callExpr fn args =>
    by_cases hf : foundGetenv ⟨fn, args⟩ = true
    · simp [hf] at h ⊢
      rw [← h]
    · simp [hf] at h ⊢
      rw [h]
  case genDecl specs =>
    split at h
    · cases h
    · cases h
      rfl
  case assignStmt lhs rhs =>
    split at h
    · cases h
    · cases h
      rfl
  all_goals rw [h]

theorem lookupCalls_cons (n : Node) (ns : List Node) :
    lookupCalls (n :: ns) = lookupCalls [n] ++ lookupCalls ns := by
  cases n <;> simp [lookupCalls]
  split <;> simp

/-- The traversal appends exactly the lookup calls it visits, in order. -/
theorem traverse_getenvCalls (fuel : Nat) (rnd : Nat → Nat → Nat) (ns : List Node)
    (st st' : RunState) (h : traverse false fuel rnd ns st = .ok st') :
    st'.getenvCalls = st.getenvCalls ++ lookupCalls ns := by
  induction ns generalizing rnd st with
  | nil =>
    simp [traverse] at h
    simp [lookupCalls, h]
  | cons n ns ih =>
    simp only [traverse] at h
    split at h
    · cases h
    · rename_i st1 h1
      rw [ih _ _ h, visit_getenvCalls _ _ _ _ _ h1, lookupCalls_cons n ns, List.append_assoc]

/-- One call leaves the result set as it is or adds one key. -/
theorem resolveCall_spec (fuel : Nat) (rnd : Nat → Nat) (declMap : DeclarationMap)
    (call : CallExpr) (valMap valMap' : ValMap)
    (h : resolveCall fuel rnd declMap call valMap = .ok valMap') :
    valMap' = valMap ∨ ∃ p, valMap' = setAdd valMap p := by
  unfold resolveCall at h
  split at h
  · cases h
  · cases h
    exact Or.inr ⟨_, rfl⟩
  · split at h
    · cases h
      exact Or.inl rfl
    · cases h
      exact Or.inr ⟨_, rfl⟩
    · split at h
      · cases h
      · cases h
        exact Or.inr ⟨_, rfl⟩
  · cases h

theorem resolveCall_nodup (fuel : Nat) (rnd : Nat → Nat) (declMap : DeclarationMap)
    (call : CallExpr) (valMap valMap' : ValMap)
    (h : resolveCall fuel rnd declMap call valMap = .ok valMap') (hn : valMap.Nodup) :
    valMap'.Nodup := by
  rcases resolveCall_spec _ _ _ _ _ _ h with rfl | ⟨p, rfl⟩
  · exact hn
  · exact setAdd_nodup _ _ hn

theorem resolveCall_subset (fuel : Nat) (rnd : Nat → Nat) (declMap : DeclarationMap)
    (call : CallExpr) (valMap valMap' : ValMap)
    (h : resolveCall fuel rnd declMap call valMap = .ok valMap') (x : Option BasicLit)
    (hx : x ∈ valMap) : x ∈ valMap' := by
  rcases resolveCall_spec _ _ _ _ _ _ h with rfl | ⟨p, rfl⟩
  · exact hx
  · exact (mem_setAdd _ _ _).mpr (Or.inl hx)

theorem resolveCalls_nodup (fuel : Nat) (declMap : DeclarationMap) (rnd : Nat → Nat → Nat)
    (calls : List CallExpr) (valMap valMap' : ValMap)
    (h : resolveCalls fuel declMap rnd calls valMap = .ok valMap') (hn : valMap.Nodup) :
    valMap'.Nodup := by
  induction calls generalizing rnd valMap with
  | nil =>
    simp [resolveCalls] at h
    exact h ▸ hn
  | cons c cs ih =>
    simp only [resolveCalls] at h
    split at h
    · cases h
    · rename_i v1 h1
      exact ih _ _ h (resolveCall_nodup _ _ _ _ _ _ h1 hn)

theorem resolveCalls_subset (fuel : Nat) (declMap : DeclarationMap) (rnd : Nat → Nat → Nat)
    (calls : List CallExpr) (valMap valMap' : ValMap)
    (h : resolveCalls fuel declMap rnd calls valMap = .ok valMap') (x : Option BasicLit)
    (hx : x ∈ valMap) : x ∈ valMap' := by
  induction calls generalizing rnd valMap with
  | nil =>
    simp [resolveCalls] at h
    exact h ▸ hx
  | cons c cs ih =>
    simp only [resolveCalls] at h
    split at h
    · cases h
    · rename_i v1 h1
      exact ih _ _ h (resolveCall_subset _ _ _ _ _ _ h1 x hx)

/-- A literal first argument of a collected call is in the result set. -/
theorem resolveCalls_mem_lit (fuel : Nat) (declMap : DeclarationMap) (rnd : Nat → Nat → Nat)
    (calls : List CallExpr) (valMap valMap' : ValMap)
    (h : resolveCalls fuel declMap rnd calls valMap = .ok valMap')
    (c : CallExpr) (hc : c ∈ calls) (v : BasicLit) (rest : List Node)
    (hargs : c.Args = .basicLit v :: rest) : some v ∈ valMap' := by
  induction calls generalizing rnd valMap with
  | nil => simp at hc
  | cons c' cs ih =>
    simp only [resolveCalls] at h
    split at h
    · cases h
    · rename_i v1 h1
      rcases List.mem_cons.mp hc with rfl | hc'
      · apply resolveCalls_subset _ _ _ _ _ _ h
        simp only [resolveCall, hargs] at h1
        cases h1
        exact (mem_setAdd _ _ _).mpr (Or.inr rfl)
      · exact ih _ _ h hc'

/-- The loop over the calls does not get past a call with a dynamic first argument. -/
theorem resolveCalls_dynamic (fuel : Nat) (declMap : DeclarationMap) (rnd : Nat → Nat → Nat)
    (calls : List CallExpr) (valMap : ValMap)
    (c : CallExpr) (hc : c ∈ calls) (a : Node) (rest : List Node)
    (hargs : c.Args = a :: rest) (ha : a.isDynamic = true) :
    ∃ e, resolveCalls fuel declMap rnd calls valMap = .error e := by
  induction calls generalizing rnd valMap with
  | nil => simp at hc
  | cons c' cs ih =>
    simp only [resolveCalls]
    split
    · exact ⟨_, rfl⟩
    · rename_i v1 h1
      rcases List.mem_cons.mp hc with rfl | hc'
      · exfalso
        cases a <;> simp [resolveCall, hargs, Node.isDynamic] at h1 ha
      · exact ih _ _ hc'

theorem run_of_resultSet_error (dump : Bool) (fuel : Nat) (o : Oracle) (files : List Node)
    (e : Fault) (h : resultSet dump fuel o files = .error e) :
    run dump fuel o files = ⟨[], .error e⟩ := by
  simp [run, h]

theorem run_of_resultSet_ok (dump : Bool) (fuel : Nat) (o : Oracle) (files : List Node)
    (valMap : ValMap) (h : resultSet dump fuel o files = .ok valMap) :
    run dump fuel o files = printAll (rangeOrder valMap.length o.emit valMap) := by
  simp [run, h]

@[simp]
theorem rangeFirst_nil {α : Type} (r : Nat) : rangeFirst r ([] : List α) = none := by
  simp [rangeFirst]

@[simp]
theorem rangeFirst_singleton {α : Type} (r : Nat) (x : α) :
    rangeFirst r [x] = some x := by
  simp [rangeFirst, Nat.mod_one]

theorem rangeOrder_singleton {α : Type} (rnd : Nat → Nat) (x : α) :
    rangeOrder 1 rnd [x] = [x] := by
  simp [rangeOrder, Nat.mod_one]

/-- With a result set free of nil, `run` returns and writes its members in some order. -/
theorem run_of_resultSet_clean (dump : Bool) (fuel : Nat) (o : Oracle) (files : List Node)
    (valMap : ValMap) (h : resultSet dump fuel o files = .ok valMap) (hn : none ∉ valMap) :
    (run dump fuel o files).status = .ok () ∧
      (run dump fuel o files).stdout.Perm (valMap.map lineOf) := by
  have hp := rangeOrder_perm valMap.length o.emit valMap rfl
  have hn' : none ∉ rangeOrder valMap.length o.emit valMap := fun hm => hn (hp.subset hm)
  rw [run_of_resultSet_ok _ _ _ _ _ h, printAll_of_not_mem_none _ hn']
  exact ⟨rfl, hp.map lineOf⟩

/-- On the self-referential map the recursion is still open at every depth. -/
theorem getLitForIdent_selfMap (fuel : Nat) (rnd : Nat → Nat) (p : Nat) :
    getLitForIdent fuel rnd ⟨p, "a"⟩ selfMap = .error .outOfFuel := by
  induction fuel generalizing rnd p with
  | zero => rfl
  | succ fuel ih =>
    simp [getLitForIdent, selfMap, DeclarationMap.set]
    exact ih _ _

/-- On the mutually referential map the recursion is still open at every depth. -/
theorem getLitForIdent_mutualMap (fuel : Nat) (rnd : Nat → Nat) (p : Nat) :
    getLitForIdent fuel rnd ⟨p, "a"⟩ mutualMap = .error .outOfFuel ∧
      getLitForIdent fuel rnd ⟨p, "b"⟩ mutualMap = .error .outOfFuel := by
  induction fuel generalizing rnd p with
  | zero => exact ⟨rfl, rfl⟩
  | succ fuel ih =>
    constructor
    · simp [getLitForIdent, mutualMap, DeclarationMap.set]
      exact (ih _ _).2
    · simp [getLitForIdent, mutualMap, DeclarationMap.set]
      exact (ih _ _).1

/-- What a range loop takes is a member of the set. -/
theorem rangeFirst_mem {α : Type} (r : Nat) (s : List α) (x : α) (h : rangeFirst r s = some x) :
    x ∈ s := by
  unfold rangeFirst at h
  exact List.get?_mem h

theorem resultSet_of_collect_error (dump : Bool) (fuel : Nat) (o : Oracle) (files : List Node)
    (e : Fault) (h : collect dump fuel o.walk files = .error e) :
    resultSet dump fuel o files = .error e := by
  simp [resultSet, h]

theorem resultSet_of_collect_ok (dump : Bool) (fuel : Nat) (o : Oracle) (files : List Node)
    (st : RunState) (h : collect dump fuel o.walk files = .ok st) :
    resultSet dump fuel o files =
      resolveCalls fuel st.tracker.declMap o.resolve st.getenvCalls [] := by
  simp [resultSet, h]

theorem collect_getenvCalls (fuel : Nat) (rnd : Nat → Nat → Nat) (files : List Node)
    (st : RunState) (h : collect false fuel rnd files = .ok st) :
    st.getenvCalls = lookupCalls (inspectFiles files) := by
  have := traverse_getenvCalls _ _ _ _ _ h
  simpa [RunState.init] using this

theorem set_isSome (m : DeclarationMap) (k : String) (v : List ValNode) (k' : String)
    (h : (m k').isSome = true) : ((m.set k v) k').isSome = true := by
  unfold DeclarationMap.set
  split
  · rfl
  · exact h

/-- The function `captureDeclaration` removes no key. -/
theorem captureDeclaration_keys (decl : GenDecl) (t t' : Tracker)
    (h : captureDeclaration decl t = .ok t') (k : String) (hk : (t.declMap k).isSome = true) :
    (t'.declMap k).isSome = true := by
  unfold captureDeclaration at h
  split at h
  · cases h
  · split at h
    · cases h
    · split at h
      · cases h
        exact set_isSome _ _ _ _ hk
      · cases h
      · cases h
        exact set_isSome _ _ _ _ hk
      · cases h
        exact set_isSome _ _ _ _ hk
      · cases h
        exact set_isSome _ _ _ _ hk
  · cases h
    exact hk

/-- The function `associateAssignment` removes no key. -/
theorem associateAssignment_keys (fuel : Nat) (rnd : Nat → Nat) (asSt : AssignStmt)
    (m m' : DeclarationMap) (h : associateAssignment fuel rnd asSt m = .ok m') (k : String)
    (hk : (m k).isSome = true) : (m' k).isSome = true := by
  unfold associateAssignment at h
  split at h
  · cases h
    exact hk
  · split at h
    · cases h
      exact hk
    · split at h
      · cases h
      · cases h
        exact set_isSome _ _ _ _ hk
      · split at h
        · cases h
        · cases h
          exact set_isSome _ _ _ _ hk
      · cases h
        exact hk
  · cases h
    exact hk

theorem set_ne (m : DeclarationMap) (k : String) (v : List ValNode) (k' : String)
    (h : k' ≠ k) : (m.set k v) k' = m k' := by
  simp [DeclarationMap.set, h]

theorem set_same (m : DeclarationMap) (k : String) (v : List ValNode) :
    (m.set k v) k = some v := by
  simp [DeclarationMap.set]

/-- A declaration whose first name is not `X` leaves the entry of `X` alone. -/
theorem captureDeclaration_frame (X : String) (specs : List Node) (t t' : Tracker)
    (hb : bindsName X (.genDecl specs) = false)
    (h : captureDeclaration ⟨specs⟩ t = .ok t') : t'.declMap X = t.declMap X := by
  unfold captureDeclaration at h
  split at h
  · cases h
  · rename_i names typ values tl hs
    simp only at hs
    subst hs
    split at h
    · cases h
    · rename_i ident ntl
      have hne : X ≠ ident.Name := by
        intro hx
        simp [bindsName, hx] at hb
      split at h
      · cases h
        exact set_ne _ _ _ _ hne
      · cases h
      · cases h
        exact set_ne _ _ _ _ hne
      · cases h
        exact set_ne _ _ _ _ hne
      · cases h
        exact set_ne _ _ _ _ hne
  · cases h
    rfl

/-- An assignment whose first target is not `X` leaves the entry of `X` alone. -/
theorem associateAssignment_frame (X : String) (fuel : Nat) (rnd : Nat → Nat)
    (lhs rhs : List Node) (m m' : DeclarationMap)
    (hb : bindsName X (.assignStmt lhs rhs) = false)
    (h : associateAssignment fuel rnd ⟨lhs, rhs⟩ m = .ok m') : m' X = m X := by
  unfold associateAssignment at h
  split at h
  · cases h
    rfl
  · rename_i lhsIdent tl hl
    simp only at hl
    subst hl
    have hne : X ≠ lhsIdent.Name := by
      intro hx
      simp [bindsName, hx] at hb
    split at h
    · cases h
      rfl
    · split at h
      · cases h
      · cases h
        exact set_ne _ _ _ _ hne
      · split at h
        · cases h
        · cases h
          exact set_ne _ _ _ _ hne
      · cases h
        rfl
  · cases h
    rfl

theorem visit_frame (X : String) (fuel : Nat) (rnd : Nat → Nat) (n : Node)
    (st st' : RunState) (hb : bindsName X n = false)
    (h : visit false fuel rnd n st = .ok st') :
    st'.tracker.declMap X = st.tracker.declMap X := by
  cases n with
  | genDecl specs =>
    simp only [visit, Bool.false_eq_true, if_false] at h
    split at h
    · cases h
    · rename_i t ht
      cases h
      exact captureDeclaration_frame X specs _ _ hb ht
  | assignStmt lhs rhs =>
    simp only [visit, Bool.false_eq_true, if_false] at h
    split at h
    · cases h
    · rename_i m hm
      cases h
      exact associateAssignment_frame X fuel rnd lhs rhs _ _ hb hm
  | callExpr fn args =>
    simp only [visit, Bool.false_eq_true, if_false] at h
    split at h <;> cases h <;> rfl
  | _ =>
    simp only [visit, Bool.false_eq_true, if_false] at h
    cases h
    rfl

/-- A traversal over nodes that do not bind `X` leaves the entry of `X` alone. -/
theorem traverse_frame (X : String) (fuel : Nat) (rnd : Nat → Nat → Nat) (ns : List Node)
    (st st' : RunState) (hb : ∀ n ∈ ns, bindsName X n = false)
    (h : traverse false fuel rnd ns st = .ok st') :
    st'.tracker.declMap X = st.tracker.declMap X := by
  induction ns generalizing rnd st with
  | nil =>
    simp [traverse] at h
    rw [h]
  | cons n ns ih =>
    simp only [traverse] at h
    split at h
    · cases h
    · rename_i st1 h1
      rw [ih _ _ (fun n hn => hb n (List.mem_cons_of_mem _ hn)) h,
        visit_frame X _ _ _ _ _ (hb n (List.mem_cons_self _ _)) h1]

/-- A traversal of two sequences in a row is the traversal of the first, then of the second. -/
theorem traverse_append (fuel : Nat) (rnd : Nat → Nat → Nat) (xs ys : List Node)
    (st st' : RunState) (h : traverse false fuel rnd (xs ++ ys) st = .ok st') :
    ∃ st1, traverse false fuel rnd xs st = .ok st1 ∧
      traverse false fuel (fun i => rnd (i + xs.length)) ys st1 = .ok st' := by
  induction xs generalizing rnd st with
  | nil => exact ⟨st, rfl, by simpa using h⟩
  | cons x xs ih =>
    simp only [List.cons_append, traverse] at h ⊢
    split at h
    · cases h
    · rename_i st1 h1
      obtain ⟨st2, h2, h3⟩ := ih _ _ h
      refine ⟨st2, ?_, ?_⟩
      · exact h2
      · have : (fun i => rnd (i + (x :: xs).length)) = fun i => rnd (i + xs.length + 1) := by
          funext i
          simp [Nat.add_assoc]
        rw [this]
        exact h3

/-- Calls that all look up a name bound to one literal give the result set of that literal. -/
theorem resolveCalls_single_literal (fuel : Nat) (declMap : DeclarationMap) (X : String)
    (lit : BasicLit) (hX : declMap X = some [.lit (some lit)])
    (rnd : Nat → Nat → Nat) (calls : List CallExpr) (valMap : ValMap)
    (hcalls : ∀ c ∈ calls, ∃ i rest, c.Args = .ident i :: rest ∧ i.Name = X)
    (hne : calls ≠ []) (hv : valMap = [] ∨ valMap = [some lit]) :
    resolveCalls fuel declMap rnd calls valMap = .ok [some lit] := by
  induction calls generalizing rnd valMap with
  | nil => exact absurd rfl hne
  | cons c cs ih =>
    obtain ⟨i, rest, hargs, hi⟩ := hcalls c (List.mem_cons_self _ _)
    have h1 : resolveCall fuel (rnd 0) declMap c valMap = .ok [some lit] := by
      rcases hv with rfl | rfl <;> simp [resolveCall, hargs, hi, hX, setAdd]
    simp only [resolveCalls, h1]
    cases cs with
    | nil => rfl
    | cons c' cs' =>
      exact ih _ _ (fun c hc => hcalls c (List.mem_cons_of_mem _ hc)) (by simp) (Or.inr rfl)

/-- A range loop over a set of two members takes one of the two. -/
theorem rangeFirst_pair {α : Type} (r : Nat) (x y : α) :
    rangeFirst r [x, y] = some x ∨ rangeFirst r [x, y] = some y := by
  unfold rangeFirst
  have h : r % 2 = 0 ∨ r % 2 = 1 := by omega
  rcases h with h | h
  · left
    simp [h]
  · right
    simp [h]

/-- The run over `var x = one`, `x = two`, `os.Getenv(x)` reports one of the two literals. -/
theorem run_reassigned (x : String) (one two : BasicLit) (fuel : Nat) (o : Oracle) :
    run false fuel o [reassigned x one two] = ⟨[lineOf (some one)], .ok ()⟩ ∨
      run false fuel o [reassigned x one two] = ⟨[lineOf (some two)], .ok ()⟩ := by
  have hr : resultSet false fuel o [reassigned x one two] = .ok [some one] ∨
      resultSet false fuel o [reassigned x one two] = .ok [some two] := by
    by_cases h : two = one
    · left
      simp [resultSet, collect, reassigned, varDecl, osGetenv, inspectFiles, inspect,
        inspectList, inspectOpt, inspectOptList, traverse, visit, foundGetenv, RunState.init,
        resolveCalls, resolveCall, setAdd, captureDeclaration, associateAssignment,
        DeclarationMap.set, h]
    · rcases rangeFirst_pair (o.resolve 0 0) (ValNode.lit (some one)) (ValNode.lit (some two))
        with hp | hp
      · left
        simp [resultSet, collect, reassigned, varDecl, osGetenv, inspectFiles, inspect,
          inspectList, inspectOpt, inspectOptList, traverse, visit, foundGetenv, RunState.init,
          resolveCalls, resolveCall, setAdd, captureDeclaration, associateAssignment,
          DeclarationMap.set, h, hp]
      · right
        simp [resultSet, collect, reassigned, varDecl, osGetenv, inspectFiles, inspect,
          inspectList, inspectOpt, inspectOptList, traverse, visit, foundGetenv, RunState.init,
          resolveCalls, resolveCall, setAdd, captureDeclaration, associateAssignment,
          DeclarationMap.set, h, hp]
  rcases hr with hr | hr
  · left
    rw [run_of_resultSet_ok _ _ _ _ _ hr]
    simp [rangeOrder_singleton, printAll, lineOf]
  · right
    rw [run_of_resultSet_ok _ _ _ _ _ hr]
    simp [rangeOrder_singleton, printAll, lineOf]

/-- Leading `c`s are all stripped. -/
theorem trimLeft_replicate_append (c : Char) (n : Nat) (l : List Char) :
    trimLeft c (List.replicate n c ++ l) = trimLeft c l := by
  induction n with
  | zero => simp
  | succ n ih => simpa [List.replicate_succ, trimLeft] using ih

/-- A list that does not start with `c` is left as it is. -/
theorem trimLeft_of_head (c : Char) (l : List Char) (h : l.head? ≠ some c) :
    trimLeft c l = l := by
  cases l with
  | nil => rfl
  | cons x xs =>
    have hx : x ≠ c := by
      intro hx
      exact h (by simp [hx])
    simp [trimLeft, hx]

/-- The call `strings.Trim` removes every leading and every trailing cutset
character and nothing else. -/
theorem Trim_replicate (c : Char) (i j : Nat) (s : String)
    (hhead : s.data.head? ≠ some c) (hlast : s.data.getLast? ≠ some c) :
    Trim (String.mk (List.replicate i c ++ s.data ++ List.replicate j c)) c = s := by
  unfold Trim
  cases hs : s.data with
  | nil =>
    have h0 := trimLeft_replicate_append c j []
    simp only [List.append_nil] at h0
    have hnil : trimLeft c [] = [] := rfl
    simp only [List.append_nil, trimLeft_replicate_append, h0, hnil, List.reverse_nil]
    cases s
    simp_all
  | cons x xs =>
    rw [← hs]
    have h1 : trimLeft c (List.replicate i c ++ s.data ++ List.replicate j c) =
        s.data ++ List.replicate j c := by
      rw [List.append_assoc, trimLeft_replicate_append]
      apply trimLeft_of_head
      rw [hs]
      rw [hs] at hhead
      simpa using hhead
    have h2 : trimLeft c (s.data ++ List.replicate j c).reverse = s.data.reverse := by
      rw [List.reverse_append, List.reverse_replicate, trimLeft_replicate_append]
      apply trimLeft_of_head
      rw [List.head?_reverse]
      exact hlast
    simp only [h1, h2, List.reverse_reverse]

/-- The raw text of a quoted string is its content between two double quotes. -/
theorem quoted_eq (s : String) :
    quoted s = String.mk (List.replicate 1 quote ++ s.data ++ List.replicate 1 quote) := by
  cases s
  rfl

/-- Stripping the quotes of a quoted string gives its content. -/
theorem Trim_quoted (s : String) (hhead : s.data.head? ≠ some quote)
    (hlast : s.data.getLast? ≠ some quote) : Trim (quoted s) quote = s := by
  rw [quoted_eq]
  exact Trim_replicate quote 1 1 s hhead hlast

/-- A run that returns has a result set without the nil key. -/
theorem resultSet_of_run_ok (dump : Bool) (fuel : Nat) (o : Oracle) (files : List Node)
    (h : (run dump fuel o files).status = .ok ()) :
    ∃ valMap, resultSet dump fuel o files = .ok valMap ∧ none ∉ valMap := by
  cases hr : resultSet dump fuel o files with
  | error e =>
    rw [run_of_resultSet_error _ _ _ _ _ hr] at h
    cases h
  | ok valMap =>
    refine ⟨valMap, rfl, ?_⟩
    intro hn
    rw [run_of_resultSet_ok _ _ _ _ _ hr, printAll_status_of_mem_none _
      ((rangeOrder_perm valMap.length o.emit valMap rfl).mem_iff.mpr hn)] at h
    cases h

/-- A result set that was computed comes from a traversal that completed. -/
theorem collect_of_resultSet_ok (dump : Bool) (fuel : Nat) (o : Oracle) (files : List Node)
    (valMap : ValMap) (h : resultSet dump fuel o files = .ok valMap) :
    ∃ st, collect dump fuel o.walk files = .ok st ∧
      resolveCalls fuel st.tracker.declMap o.resolve st.getenvCalls [] = .ok valMap := by
  cases hc : collect dump fuel o.walk files with
  | error e =>
    rw [resultSet_of_collect_error _ _ _ _ _ hc] at h
    cases h
  | ok st =>
    rw [resultSet_of_collect_ok _ _ _ _ _ hc] at h
    exact ⟨st, rfl, h⟩

/-- In dump mode the traversal leaves the state of `run` as it is. -/
theorem traverse_dump (fuel : Nat) (rnd : Nat → Nat → Nat) (ns : List Node) (st : RunState) :
    traverse true fuel rnd ns st = .ok st := by
  induction ns generalizing rnd with
  | nil => rfl
  | cons n ns ih => simp [traverse, visit, ih]

/-- Adding a key makes a set longer by at most one. -/
theorem length_setAdd_le {α : Type} [DecidableEq α] (s : List α) (x : α) :
    (setAdd s x).length ≤ s.length + 1 := by
  unfold setAdd
  split <;> simp

/-- The loop over the calls adds at most one key per call. -/
theorem resolveCalls_length (fuel : Nat) (declMap : DeclarationMap) (rnd : Nat → Nat → Nat)
    (calls : List CallExpr) (valMap valMap' : ValMap)
    (h : resolveCalls fuel declMap rnd calls valMap = .ok valMap') :
    valMap'.length ≤ valMap.length + calls.length := by
  induction calls generalizing rnd valMap with
  | nil =>
    simp [resolveCalls] at h
    simp [h]
  | cons c cs ih =>
    simp only [resolveCalls] at h
    split at h
    · cases h
    · rename_i v1 h1
      have h2 := ih _ _ h
      have h3 : v1.length ≤ valMap.length + 1 := by
        rcases resolveCall_spec _ _ _ _ _ _ h1 with rfl | ⟨p, rfl⟩
        · omega
        · exact length_setAdd_le _ _
      simp only [List.length_cons]
      omega

/-- The function `captureDeclaration` on an initializer that is neither a
literal nor an identifier allocates the placeholder literal and adds it. -/
theorem captureDeclaration_dynamic (t : Tracker) (x : Ident) (names : List Ident)
    (typ : Option Node) (v : Node) (vs specs : List Node) (hdyn : v.isDynamic = true) :
    captureDeclaration ⟨.valueSpec (x :: names) typ (some (v :: vs)) :: specs⟩ t =
      .ok ⟨t.declMap.set x.Name (setAdd ((t.declMap x.Name).getD [])
        (.lit (some ⟨.made t.nextLit, unexpectedValue x.Name v⟩))), t.nextLit + 1⟩ := by
  cases v <;> simp [Node.isDynamic] at hdyn <;> rfl

/-- When one declaration is the only node of a traversal that binds `X`, the
entry of `X` after the traversal is the one that declaration makes on a map
without the key `X`. -/
theorem collect_single_binding (fuel : Nat) (rnd : Nat → Nat → Nat) (files : List Node)
    (X : String) (specs pre post : List Node) (st : RunState)
    (hsplit : inspectFiles files = pre ++ .genDecl specs :: post)
    (honly : ∀ n ∈ pre ++ post, bindsName X n = false)
    (hret : collect false fuel rnd files = .ok st) :
    ∃ t1 t2, t1.declMap X = none ∧ captureDeclaration ⟨specs⟩ t1 = .ok t2 ∧
      st.tracker.declMap X = t2.declMap X := by
  unfold collect at hret
  rw [hsplit] at hret
  obtain ⟨st1, h1, h2⟩ := traverse_append _ _ _ _ _ _ hret
  have e1 := traverse_frame X _ _ _ _ _
    (fun n hn => honly n (List.mem_append_left _ hn)) h1
  simp only [traverse] at h2
  split at h2
  · cases h2
  · rename_i st2 hv
    have e3 := traverse_frame X _ _ _ _ _
      (fun n hn => honly n (List.mem_append_right _ hn)) h2
    simp only [visit, Bool.false_eq_true, if_false] at hv
    split at hv
    · cases hv
    · rename_i t2 ht2
      cases hv
      exact ⟨st1.tracker, t2, by rw [e1]; rfl, ht2, e3⟩

/-- A collected call that looks up a name whose value set is one literal has
that literal in the result set. -/
theorem resolveCalls_mem_ident (fuel : Nat) (declMap : DeclarationMap)
    (rnd : Nat → Nat → Nat) (calls : List CallExpr) (valMap valMap' : ValMap)
    (h : resolveCalls fuel declMap rnd calls valMap = .ok valMap')
    (c : CallExpr) (hc : c ∈ calls) (i : Ident) (rest : List Node)
    (hargs : c.Args = .ident i :: rest) (p : Option BasicLit)
    (hp : declMap i.Name = some [.lit p]) : p ∈ valMap' := by
  induction calls generalizing rnd valMap with
  | nil => simp at hc
  | cons c' cs ih =>
    simp only [resolveCalls] at h
    split at h
    · cases h
    · rename_i v1 h1
      rcases List.mem_cons.mp hc with rfl | hc'
      · apply resolveCalls_subset _ _ _ _ _ _ h
        simp only [resolveCall, hargs, hp, Option.getD_some, rangeFirst_singleton] at h1
        cases h1
        exact (mem_setAdd _ _ _).mpr (Or.inr rfl)
      · exact ih _ _ h hc'

/-- The placeholder text has no double quote to strip when the type name does
not end in one. -/
theorem Trim_unexpectedValue (name : String) (v : Node)
    (hq : v.typeName.data.getLast? ≠ some quote) :
    Trim (unexpectedValue name v) quote = unexpectedValue name v := by
  have hhead : (unexpectedValue name v).data.head? = some 'e' := by
    simp [unexpectedValue, String.data_append, List.head?_append]
  have hlast : (unexpectedValue name v).data.getLast? ≠ some quote := by
    simp only [unexpectedValue, String.data_append, List.getLast?_append]
    cases hl : v.typeName.data.getLast? with
    | some c =>
      rw [hl] at hq
      simpa using hq
    | none =>
      simp only [Option.none_or]
      have hb : (") value to be either *ast.BasicLit or *ast.Ident, but got ").data.getLast?
          = some ' ' := by decide
      rw [hb]
      simp [Option.or]
      decide
  have h := Trim_replicate quote 0 0 (unexpectedValue name v) (by
    rw [hhead]
    decide) hlast
  simpa using h

/-- A literal that `getLitForIdent` returns is a member of the value set of a
name reached from the name asked for. -/
theorem getLitForIdent_mem (m : DeclarationMap) (fuel : Nat) (rnd : Nat → Nat) (i : Ident)
    (b : BasicLit) (h : getLitForIdent fuel rnd i m = .ok (some b)) :
    ∃ k s, Reaches m i.Name k ∧ m k = some s ∧ ValNode.lit (some b) ∈ s := by
  induction fuel generalizing rnd i with
  | zero => cases h
  | succ fuel ih =>
    unfold getLitForIdent at h
    split at h
    · cases h
    · rename_i nodeMap hm
      split at h
      · cases h
      · rename_i v hv
        cases h
        exact ⟨i.Name, nodeMap, .here _, hm, rangeFirst_mem _ _ _ hv⟩
      · rename_i v hv
        obtain ⟨k, s, hreach, hk, hb⟩ := ih _ _ h
        exact ⟨k, s, .step _ _ nodeMap v hm (rangeFirst_mem _ _ _ hv) hreach, hk, hb⟩

/-- On an acyclic map a call depth above the rank of the name is enough for
`getLitForIdent` to return. -/
theorem getLitForIdent_ok_of_rank (m : DeclarationMap) (rank : String → Nat)
    (hrank : ∀ k s i, m k = some s → ValNode.ident i ∈ s → rank i.Name < rank k)
    (fuel : Nat) (rnd : Nat → Nat) (ident : Ident) (hfuel : rank ident.Name < fuel) :
    ∃ r, getLitForIdent fuel rnd ident m = .ok r := by
  induction fuel generalizing rnd ident with
  | zero => omega
  | succ fuel ih =>
    unfold getLitForIdent
    split
    · exact ⟨_, rfl⟩
    · rename_i nodeMap hm
      split
      · exact ⟨_, rfl⟩
      · exact ⟨_, rfl⟩
      · rename_i v hv
        have := hrank _ _ _ hm (rangeFirst_mem _ _ _ hv)
        exact ih _ _ (by omega)

/-- The rank `chainRank` falls along the identifier members of `chainMap`. -/
theorem chainMap_acyclic (k : String) (s : List ValNode) (i : Ident)
    (hm : chainMap k = some s) (hi : ValNode.ident i ∈ s) :
    chainRank i.Name < chainRank k := by
  by_cases hka : k = "a"
  · subst hka
    simp [chainMap, DeclarationMap.set] at hm
    subst hm
    simp at hi
    subst hi
    decide
  · by_cases hkb : k = "b"
    · subst hkb
      simp [chainMap, DeclarationMap.set] at hm
      subst hm
      simp at hi
    · simp [chainMap, DeclarationMap.set, hka, hkb] at hm

/-- Storing a value set whose allocated literals are old keeps the allocator fresh. -/
theorem freshFrom_set (m : DeclarationMap) (N N' : Nat) (k : String) (v : List ValNode)
    (hm : FreshFrom m N) (hN : N ≤ N')
    (hv : ∀ b n, ValNode.lit (some b) ∈ v → b.ptr = .made n → n < N') :
    FreshFrom (m.set k v) N' := by
  intro k' s b n hs hb hp
  unfold DeclarationMap.set at hs
  split at hs
  · cases hs
    exact hv b n hb hp
  · exact Nat.lt_of_lt_of_le (hm k' s b n hs hb hp) hN

/-- The allocated literals of an entry read with a default are old. -/
theorem freshFrom_getD (m : DeclarationMap) (N : Nat) (k : String) (hm : FreshFrom m N)
    (b : BasicLit) (n : Nat) (hb : ValNode.lit (some b) ∈ (m k).getD [])
    (hp : b.ptr = .made n) : n < N := by
  cases hk : m k with
  | none => simp [hk] at hb
  | some s =>
    rw [hk] at hb
    exact hm k s b n hk hb hp

/-- The function `captureDeclaration` keeps the allocator fresh. -/
theorem captureDeclaration_fresh (specs : List Node) (t t' : Tracker)
    (hp : storesParsed (.genDecl specs) = true) (hf : FreshFrom t.declMap t.nextLit)
    (h : captureDeclaration ⟨specs⟩ t = .ok t') : FreshFrom t'.declMap t'.nextLit := by
  unfold captureDeclaration at h
  split at h
  · cases h
  · rename_i names typ values tl hs
    simp only at hs
    subst hs
    split at h
    · cases h
    · split at h
      · cases h
        exact freshFrom_set _ _ _ _ _ hf (Nat.le_refl _) (by simp)
      · cases h
      · rename_i v vs
        cases h
        apply freshFrom_set _ _ _ _ _ hf (Nat.le_refl _)
        intro b n hb hpb
        rcases (mem_setAdd _ _ _).mp hb with hb | hb
        · exact freshFrom_getD _ _ _ hf b n hb hpb
        · cases hb
          simp [storesParsed, hpb, Ptr.isParsed] at hp
      · cases h
        apply freshFrom_set _ _ _ _ _ hf (Nat.le_refl _)
        intro b n hb hpb
        rcases (mem_setAdd _ _ _).mp hb with hb | hb
        · exact freshFrom_getD _ _ _ hf b n hb hpb
        · cases hb
      · cases h
        apply freshFrom_set _ _ _ _ _ hf (Nat.le_succ _)
        intro b n hb hpb
        rcases (mem_setAdd _ _ _).mp hb with hb | hb
        · exact Nat.lt_succ_of_lt (freshFrom_getD _ _ _ hf b n hb hpb)
        · cases hb
          cases hpb
          exact Nat.lt_succ_self _
  · cases h
    exact hf

/-- The function `associateAssignment` keeps the allocator fresh. -/
theorem associateAssignment_fresh (fuel : Nat) (rnd : Nat → Nat) (lhs rhs : List Node)
    (m m' : DeclarationMap) (N : Nat)
    (hp : storesParsed (.assignStmt lhs rhs) = true) (hf : FreshFrom m N)
    (h : associateAssignment fuel rnd ⟨lhs, rhs⟩ m = .ok m') : FreshFrom m' N := by
  unfold associateAssignment at h
  split at h
  · cases h
    exact hf
  · rename_i lhsIdent tl hl
    split at h
    · cases h
      exact hf
    · rename_i nodeMap hm
      split at h
      · cases h
      · rename_i v vs hr
        simp only at hr
        subst hr
        cases h
        apply freshFrom_set _ _ _ _ _ hf (Nat.le_refl _)
        intro b n hb hpb
        rcases (mem_setAdd _ _ _).mp hb with hb | hb
        · exact hf _ _ b n hm hb hpb
        · cases hb
          simp [storesParsed, hpb, Ptr.isParsed] at hp
      · split at h
        · cases h
        · rename_i r hget
          cases h
          apply freshFrom_set _ _ _ _ _ hf (Nat.le_refl _)
          intro b n hb hpb
          rcases (mem_setAdd _ _ _).mp hb with hb | hb
          · exact hf _ _ b n hm hb hpb
          · cases hb
            obtain ⟨k, s, -, hk, hmem⟩ := getLitForIdent_mem _ _ _ _ b hget
            exact hf k s b n hk hmem hpb
      · cases h
        exact hf
  · cases h
    exact hf

/-- Every state of a traversal from the start of `run`, over nodes that store
parsed literals only, has a fresh allocator: no member of a value set is at an
address that is still to be handed out. -/
theorem traverse_fresh (fuel : Nat) (rnd : Nat → Nat → Nat) (ns : List Node)
    (st st' : RunState) (hp : ∀ n ∈ ns, storesParsed n = true)
    (hf : FreshFrom st.tracker.declMap st.tracker.nextLit)
    (h : traverse false fuel rnd ns st = .ok st') :
    FreshFrom st'.tracker.declMap st'.tracker.nextLit := by
  induction ns generalizing rnd st with
  | nil =>
    simp [traverse] at h
    exact h ▸ hf
  | cons n ns ih =>
    simp only [traverse] at h
    split at h
    · cases h
    · rename_i st1 h1
      apply ih _ _ (fun n hn => hp n (List.mem_cons_of_mem _ hn)) _ h
      have hpn := hp n (List.mem_cons_self _ _)
      cases n with
      | genDecl specs =>
        simp only [visit, Bool.false_eq_true, if_false] at h1
        split at h1
        · cases h1
        · rename_i t ht
          cases h1
          exact captureDeclaration_fresh specs _ _ hpn hf ht
      | assignStmt lhs rhs =>
        simp only [visit, Bool.false_eq_true, if_false] at h1
        split at h1
        · cases h1
        · rename_i m hm
          cases h1
          exact associateAssignment_fresh fuel _ lhs rhs _ _ _ hpn hf hm
      | callExpr fn args =>
        simp only [visit, Bool.false_eq_true, if_false] at h1
        split at h1 <;> cases h1 <;> exact hf
      | _ =>
        simp only [visit, Bool.false_eq_true, if_false] at h1
        cases h1
        exact hf

/-- The allocator is fresh at the start of `run`. -/
theorem freshFrom_init : FreshFrom RunState.init.tracker.declMap RunState.init.tracker.nextLit := by
  intro k s b n hs
  cases hs

/-- A run over a forest that holds a lookup call with a dynamic first
argument computes no result set. -/
theorem resultSet_error_of_dynamic (fuel : Nat) (o : Oracle) (files : List Node)
    (fn a : Node) (rest : List Node)
    (hin : Node.callExpr fn (a :: rest) ∈ inspectFiles files)
    (hget : foundGetenv ⟨fn, a :: rest⟩ = true) (hdyn : a.isDynamic = true) :
    ∃ e, resultSet false fuel o files = .error e := by
  cases hc : collect false fuel o.walk files with
  | error e => exact ⟨e, resultSet_of_collect_error _ _ _ _ _ hc⟩
  | ok st =>
    rw [resultSet_of_collect_ok _ _ _ _ _ hc, collect_getenvCalls _ _ _ _ hc]
    exact resolveCalls_dynamic _ _ _ _ _ ⟨fn, a :: rest⟩
      ((mem_lookupCalls _ _ _).mpr ⟨hin, hget⟩) a rest rfl hdyn

/-- A run that computes no result set writes nothing. -/
theorem run_stdout_of_resultSet_error (dump : Bool) (fuel : Nat) (o : Oracle)
    (files : List Node) (h : ∃ e, resultSet dump fuel o files = .error e) :
    (run dump fuel o files).stdout = [] := by
  obtain ⟨e, he⟩ := h
  rw [run_of_resultSet_error _ _ _ _ _ he]

/-- On a map in which `a` is bound to an identifier `a` only, the recursion
of `getLitForIdent` on `a` is still open at every depth. -/
theorem getLitForIdent_self_loop (m : DeclarationMap) (q : Nat)
    (hm : m "a" = some [.ident ⟨q, "a"⟩]) (fuel : Nat) (rnd : Nat → Nat) (p : Nat) :
    getLitForIdent fuel rnd ⟨p, "a"⟩ m = .error .outOfFuel := by
  induction fuel generalizing rnd p with
  | zero => rfl
  | succ fuel ih =>
    simp only [getLitForIdent, hm, rangeFirst_singleton]
    exact ih _ _

/-- What is left after stripping leading characters was there before. -/
theorem mem_of_mem_trimLeft (c x : Char) (l : List Char) (h : x ∈ trimLeft c l) : x ∈ l := by
  induction l with
  | nil => exact h
  | cons y ys ih =>
    simp only [trimLeft] at h
    split at h
    · exact List.mem_cons_of_mem _ (ih h)
    · exact h

/-- The call `strings.Trim` adds no character. -/
theorem mem_of_mem_Trim (s : String) (c x : Char) (h : x ∈ (Trim s c).data) : x ∈ s.data := by
  unfold Trim at h
  simp only [List.mem_reverse] at h
  have h1 := mem_of_mem_trimLeft c x _ h
  simp only [List.mem_reverse] at h1
  exact mem_of_mem_trimLeft c x _ h1

/-- A text without a newline is printed as one line. -/
theorem lineCount_lineOf (b : BasicLit) (h : newline ∉ b.Value.data) :
    lineCount (lineOf (some b)) = 1 := by
  have hn : newline ∉ (Trim b.Value quote).data := fun hm => h (mem_of_mem_Trim _ _ _ hm)
  simp [lineCount, lineOf, List.count_eq_zero_of_not_mem hn]

/-- Printing keys whose texts hold no newline writes one line per key. -/
theorem sum_lineCount_map_lineOf (l : List (Option BasicLit)) (hnil : none ∉ l)
    (h : ∀ b, some b ∈ l → newline ∉ b.Value.data) :
    ((l.map lineOf).map lineCount).sum = l.length := by
  induction l with
  | nil => rfl
  | cons x xs ih =>
    cases x with
    | none => simp at hnil
    | some b =>
      have hx : none ∉ xs := fun hm => hnil (List.mem_cons_of_mem _ hm)
      have := ih hx (fun b' hb' => h b' (List.mem_cons_of_mem _ hb'))
      simp only [List.map_cons, List.sum_cons, List.length_cons, this,
        lineCount_lineOf b (h b (List.mem_cons_self _ _))]
      omega

/-! ## The claims -/

/-- Claim C1: `foundGetenv` is true exactly for a call whose function is a
selector expression with an identifier named `os` as receiver and `Getenv` as
selected name; every other call shape gives false. -/
theorem foundGetenv_iff (call : CallExpr) :
    foundGetenv call = true ↔
      ∃ pkg sel, call.Fun = .selectorExpr (.ident pkg) sel ∧ pkg.Name = "os" ∧
        sel.Name = "Getenv" := by
  unfold foundGetenv
  split
  · rename_i pkg sel h
    simp only [Bool.and_eq_true, beq_iff_eq]
    constructor
    · rintro ⟨h1, h2⟩
      exact ⟨pkg, sel, h, h1, h2⟩
    · rintro ⟨pkg', sel', h', h1, h2⟩
      rw [h] at h'
      cases h'
      exact ⟨h1, h2⟩
  · rename_i h
    constructor
    · intro hf
      cases hf
    · rintro ⟨pkg, sel, h', -, -⟩
      exact absurd h' (h pkg sel)

/-- Claim C2, at the failing input: two calls `os.Getenv("FOO")`, each with its
own literal node, make `run` write the line `FOO` twice; under no choice of
the range loops is the output the single line `FOO`. -/
theorem dedup_by_text_counterexample :
    (run false 0 firstMember [twoFoo]).stdout = ["FOO", "FOO"] ∧
      ¬ ∃ fuel o, (run false fuel o [twoFoo]).stdout = ["FOO"] := by
  refine ⟨by rfl, ?_⟩
  rintro ⟨fuel, o, h⟩
  have hr : resultSet false fuel o [twoFoo] =
      .ok [some ⟨.parsed 12, quoted "FOO"⟩, some ⟨.parsed 22, quoted "FOO"⟩] := by
    simp [resultSet, collect, twoFoo, osGetenv, inspectFiles, inspect, inspectList, traverse,
      visit, foundGetenv, RunState.init, resolveCalls, resolveCall, setAdd]
  have hl := (run_of_resultSet_clean _ _ _ _ _ hr (by simp)).2.length_eq
  rw [h] at hl
  simp at hl

/-- The result set is keyed by literal node, not by text.
Whenever the loop over the calls completes, the result set holds no node twice,
it holds the literal node of every lookup call whose first argument is a
literal, and (no nil key being in it) `run` returns and calls `fmt.Println` once
for each member, in some order. -/
theorem output_per_literal_node (fuel : Nat) (o : Oracle) (files : List Node) (valMap : ValMap)
    (h : resultSet false fuel o files = .ok valMap) :
    valMap.Nodup ∧
      (∀ fn v rest, Node.callExpr fn (.basicLit v :: rest) ∈ inspectFiles files →
        foundGetenv ⟨fn, .basicLit v :: rest⟩ = true → some v ∈ valMap) ∧
      (none ∉ valMap → (run false fuel o files).status = .ok () ∧
        (run false fuel o files).stdout.Perm (valMap.map lineOf)) := by
  cases hc : collect false fuel o.walk files with
  | error e =>
    rw [resultSet_of_collect_error _ _ _ _ _ hc] at h
    cases h
  | ok st =>
    have hcalls := h
    rw [resultSet_of_collect_ok _ _ _ _ _ hc, collect_getenvCalls _ _ _ _ hc] at hcalls
    refine ⟨resolveCalls_nodup _ _ _ _ _ _ hcalls List.nodup_nil, ?_,
      run_of_resultSet_clean _ _ _ _ _ h⟩
    intro fn v rest hin hget
    exact resolveCalls_mem_lit _ _ _ _ _ _ hcalls ⟨fn, .basicLit v :: rest⟩
      ((mem_lookupCalls _ _ _).mpr ⟨hin, hget⟩) v rest rfl

/-- On the file with two `os.Getenv("FOO")` the result set is the two literal
nodes and the output is the line `FOO` twice. -/
theorem output_per_literal_node_witness :
    resultSet false 0 firstMember [twoFoo] =
        .ok [some ⟨.parsed 12, quoted "FOO"⟩, some ⟨.parsed 22, quoted "FOO"⟩] ∧
      (run false 0 firstMember [twoFoo]).stdout.Perm ["FOO", "FOO"] :=
  ⟨rfl, ((output_per_literal_node 0 firstMember [twoFoo]
    [some ⟨.parsed 12, quoted "FOO"⟩, some ⟨.parsed 22, quoted "FOO"⟩] rfl).2.2
      (by decide)).2⟩

/-- Claim C3, counterexample: with `var a = "BAR"`, `b := a` and a lookup of
`b`, where `b` is no tracked name, the assignment is ignored and `run` writes
nothing; under no choice does the output contain `BAR`. -/
theorem short_definition_counterexample :
    run false 1 firstMember [chainShort] = ⟨[], .ok ()⟩ ∧
      ¬ ∃ fuel o, "BAR" ∈ (run false fuel o [chainShort]).stdout := by
  refine ⟨by rfl, ?_⟩
  rintro ⟨fuel, o, h⟩
  have hr : resultSet false fuel o [chainShort] = .ok [] := by
    simp [resultSet, collect, chainShort, varDecl, osGetenv, inspectFiles, inspect, inspectList,
      inspectOpt, inspectOptList, traverse, visit, foundGetenv, RunState.init, resolveCalls,
      resolveCall, setAdd, captureDeclaration, associateAssignment, DeclarationMap.set]
  rw [run_of_resultSet_ok _ _ _ _ _ hr] at h
  simp [rangeOrder, printAll] at h

/-- Claim C3, amended: when `b` is a tracked name at the assignment (`var a =
lit`, `var b`, then `b := a`, then a lookup of `b`, with `a` and `b` different
names), the result set is the literal of `a` and `run` writes its text,
quotes stripped, as the only line, for every choice and every call depth of
at least one. -/
theorem chain_through_tracked_name (a b : String) (lit : BasicLit) (fuel : Nat) (o : Oracle)
    (hab : a ≠ b) :
    resultSet false (fuel + 1) o [chainTracked a b lit] = .ok [some lit] ∧
      run false (fuel + 1) o [chainTracked a b lit] = ⟨[Trim lit.Value quote], .ok ()⟩ := by
  have hr : resultSet false (fuel + 1) o [chainTracked a b lit] = .ok [some lit] := by
    simp [resultSet, collect, chainTracked, varDecl, osGetenv, inspectFiles, inspect,
      inspectList, inspectOpt, inspectOptList, traverse, visit, foundGetenv, RunState.init,
      resolveCalls, resolveCall, setAdd, captureDeclaration, associateAssignment,
      DeclarationMap.set, getLitForIdent, hab, Ne.symm hab]
  refine ⟨hr, ?_⟩
  rw [run_of_resultSet_ok _ _ _ _ _ hr]
  simp [rangeOrder_singleton, printAll]

/-- Claim C3, witness: `var a = "BAR"`, `var b`, `b := a`, `os.Getenv(b)` writes `BAR`. -/
theorem chain_through_tracked_name_witness :
    "a" ≠ "b" ∧
      run false 1 firstMember [chainTracked "a" "b" ⟨.parsed 2, quoted "BAR"⟩] =
        ⟨["BAR"], .ok ()⟩ :=
  ⟨by decide,
    (chain_through_tracked_name "a" "b" ⟨.parsed 2, quoted "BAR"⟩ 0 firstMember (by decide)).2⟩

/-- Claim C4, at the failing input `var a = b` (with `b` untracked) followed by
`os.Getenv(a)`: the nil result of `getLitForIdent` is stored as a key of the
result set, and the loop that prints aborts on it with a nil dereference. -/
theorem dangling_chain_run (fuel : Nat) (o : Oracle) :
    resultSet false (fuel + 1) o [danglingChain] = .ok [none] ∧
      run false (fuel + 1) o [danglingChain] = ⟨[], .error nilDereference⟩ := by
  have hr : resultSet false (fuel + 1) o [danglingChain] = .ok [none] := by
    simp [resultSet, collect, danglingChain, varDecl, osGetenv, inspectFiles, inspect,
      inspectList, inspectOpt, inspectOptList, traverse, visit, foundGetenv, RunState.init,
      resolveCalls, resolveCall, setAdd, captureDeclaration, DeclarationMap.set, getLitForIdent]
  refine ⟨hr, ?_⟩
  rw [run_of_resultSet_ok _ _ _ _ _ hr]
  simp [rangeOrder_singleton, printAll]

/-- Claim C5, at the failing input `x = y` after `var x`, with `y` untracked:
`getLitForIdent` yields nil for `y`, and `associateAssignment` turns the empty
value set of `x` into the set whose one member is the nil literal. -/
theorem assignment_adds_nil (fuel : Nat) (rnd : Nat → Nat) :
    getLitForIdent (fuel + 1) rnd ⟨2, "y"⟩ emptyX = .ok none ∧
      emptyX "x" = some [] ∧
      ∃ m, associateAssignment (fuel + 1) rnd ⟨[.ident ⟨1, "x"⟩], [.ident ⟨2, "y"⟩]⟩ emptyX
          = .ok m ∧ m "x" = some [.lit none] := by
  simp [associateAssignment, emptyX, getLitForIdent, DeclarationMap.set, setAdd]

/-- Claim C6: with dump off, a forest that holds a lookup call whose first
argument is neither a literal nor an identifier makes `run` abort, for every
choice and every call depth: it writes no line and does not return. -/
theorem dynamic_argument_aborts (fuel : Nat) (o : Oracle) (files : List Node)
    (fn a : Node) (rest : List Node)
    (hin : Node.callExpr fn (a :: rest) ∈ inspectFiles files)
    (hget : foundGetenv ⟨fn, a :: rest⟩ = true)
    (hdyn : a.isDynamic = true) :
    (run false fuel o files).stdout = [] ∧
      ∃ e, (run false fuel o files).status = .error e := by
  have key : ∃ e, resultSet false fuel o files = .error e := by
    cases hc : collect false fuel o.walk files with
    | error e => exact ⟨e, resultSet_of_collect_error _ _ _ _ _ hc⟩
    | ok st =>
      rw [resultSet_of_collect_ok _ _ _ _ _ hc, collect_getenvCalls _ _ _ _ hc]
      exact resolveCalls_dynamic _ _ _ _ _ ⟨fn, a :: rest⟩
        ((mem_lookupCalls _ _ _).mpr ⟨hin, hget⟩) a rest rfl hdyn
  obtain ⟨e, he⟩ := key
  rw [run_of_resultSet_error _ _ _ _ _ he]
  exact ⟨rfl, e, rfl⟩

/-- Claim C6, witness: `os.Getenv(fmt.Sprintf("X"))` aborts the run with the
panic of the unsupported argument. -/
theorem dynamic_argument_aborts_witness :
    run false 0 firstMember [dynamicArg] = ⟨[], .error todoPanic⟩ ∧
      ((run false 0 firstMember [dynamicArg]).stdout = [] ∧
        ∃ e, (run false 0 firstMember [dynamicArg]).status = .error e) :=
  ⟨rfl, dynamic_argument_aborts 0 firstMember [dynamicArg]
    (.selectorExpr (.ident ⟨1, "os"⟩) ⟨2, "Getenv"⟩)
    (.callExpr (.selectorExpr (.ident ⟨3, "fmt"⟩) ⟨4, "Sprintf"⟩)
      [.basicLit ⟨.parsed 5, quoted "X"⟩]) []
    (by simp [inspectFiles, inspect, inspectList, dynamicArg, osGetenv]) rfl rfl⟩

/-- Claim C7, at the failing input `var x = "A"` followed by `var x`: after the
first declaration the literal is the member of the value set of `x`, after the
second the value set of `x` is empty. -/
theorem redeclaration_resets :
    ∃ t1 t2,
      captureDeclaration ⟨[.valueSpec [⟨1, "x"⟩] none (some [.basicLit ⟨.parsed 2, quoted "A"⟩])]⟩
        ⟨fun _ => none, 0⟩ = .ok t1 ∧
      t1.declMap "x" = some [.lit (some ⟨.parsed 2, quoted "A"⟩)] ∧
      captureDeclaration ⟨[.valueSpec [⟨3, "x"⟩] none none]⟩ t1 = .ok t2 ∧
      t2.declMap "x" = some [] := by
  simp [captureDeclaration, DeclarationMap.set, setAdd]

/-- Claim C8: an operation of the tracker (`captureDeclaration` or
`associateAssignment`) that returns keeps every key of the declaration map. -/
theorem tracked_names_stay (op : TrackerOp) (t t' : Tracker) (k : String)
    (h : op.apply t = .ok t') (hk : (t.declMap k).isSome = true) :
    (t'.declMap k).isSome = true := by
  cases op with
  | capture decl => exact captureDeclaration_keys decl t t' h k hk
  | assign fuel rnd asSt =>
    simp only [TrackerOp.apply] at h
    split at h
    · cases h
    · rename_i m hm
      cases h
      exact associateAssignment_keys fuel rnd asSt _ _ hm k hk

/-- Claim C8, witness: `x`, registered by `var x` with an empty value set, is
still a key after another `var x`. -/
theorem tracked_names_stay_witness :
    (emptyX "x").isSome = true ∧
      ((DeclarationMap.set emptyX "x" []) "x").isSome = true :=
  ⟨rfl, tracked_names_stay (.capture ⟨[.valueSpec [⟨3, "x"⟩] none none]⟩) ⟨emptyX, 0⟩
    ⟨DeclarationMap.set emptyX "x" [], 0⟩ "x" rfl rfl⟩

/-- Claim C9, counterexample: on the self-referential map of `var a = a` and on
the mutually referential map of `var a = b`, `var b = a`, `getLitForIdent`
returns at no call depth and under no choice: the recursion has no bound. -/
theorem cyclic_chain_counterexample :
    (¬ ∃ fuel rnd r, getLitForIdent fuel rnd ⟨0, "a"⟩ selfMap = .ok r) ∧
      (¬ ∃ fuel rnd r, getLitForIdent fuel rnd ⟨0, "a"⟩ mutualMap = .ok r) := by
  constructor
  · rintro ⟨fuel, rnd, r, h⟩
    rw [getLitForIdent_selfMap] at h
    cases h
  · rintro ⟨fuel, rnd, r, h⟩
    rw [(getLitForIdent_mutualMap _ _ _).1] at h
    cases h

/-- Claim C9, amended: on a declaration map whose identifier chains are acyclic
(some rank of the names falls strictly from a key to every identifier member
of its value set), `getLitForIdent` returns, a literal or nil, under every
choice, as soon as the call depth exceeds the rank of the name asked for. -/
theorem getLitForIdent_terminates (m : DeclarationMap) (rank : String → Nat)
    (hrank : ∀ k s i, m k = some s → ValNode.ident i ∈ s → rank i.Name < rank k)
    (fuel : Nat) (rnd : Nat → Nat) (ident : Ident) (hfuel : rank ident.Name < fuel) :
    ∃ r, getLitForIdent fuel rnd ident m = .ok r := by
  induction fuel generalizing rnd ident with
  | zero => omega
  | succ fuel ih =>
    unfold getLitForIdent
    split
    · exact ⟨_, rfl⟩
    · rename_i nodeMap hm
      split
      · exact ⟨_, rfl⟩
      · exact ⟨_, rfl⟩
      · rename_i v hv
        have := hrank _ _ _ hm (rangeFirst_mem _ _ _ hv)
        exact ih _ _ (by omega)

/-- Claim C9, witness: on the map of `var b = "X"`, `var a = b` a call depth of
two suffices for `a`. -/
theorem getLitForIdent_terminates_witness :
    chainRank "a" < 2 ∧ ∃ r, getLitForIdent 2 (fun _ => 0) ⟨0, "a"⟩ chainMap = .ok r :=
  ⟨by decide, getLitForIdent_terminates chainMap chainRank (by
    intro k s i hm hi
    by_cases hka : k = "a"
    · subst hka
      simp [chainMap, DeclarationMap.set] at hm
      subst hm
      simp at hi
      subst hi
      decide
    · by_cases hkb : k = "b"
      · subst hkb
        simp [chainMap, DeclarationMap.set] at hm
        subst hm
        simp at hi
      · simp [chainMap, DeclarationMap.set, hka, hkb] at hm) 2 (fun _ => 0) ⟨0, "a"⟩
    (by decide)⟩

/-- Claim C10, counterexample: a forest with `var X = "literal"` as the only
binding of `X` and two lookups of `X` that also holds `var ()` aborts in the
traversal and writes nothing; so does one that also holds `var a = a` and
`a = a` in an inner block, where the traversal never returns. -/
theorem declared_once_counterexample :
    run false 0 firstMember lookedUpTwiceThenEmptyGroup = ⟨[], .error indexOutOfRange⟩ ∧
      (¬ ∃ fuel o, "literal" ∈ (run false fuel o lookedUpTwiceThenEmptyGroup).stdout) ∧
      (¬ ∃ fuel o, "literal" ∈ (run false fuel o [lookedUpWithCycle]).stdout) := by
  refine ⟨rfl, ?_, ?_⟩
  · rintro ⟨fuel, o, h⟩
    have hr : resultSet false fuel o lookedUpTwiceThenEmptyGroup = .error indexOutOfRange := by
      simp [resultSet, collect, lookedUpTwiceThenEmptyGroup, lookedUpTwice, emptyGroup, varDecl,
        osGetenv, inspectFiles, inspect, inspectList, inspectOpt, inspectOptList, traverse,
        visit, foundGetenv, RunState.init, captureDeclaration]
    rw [run_of_resultSet_error _ _ _ _ _ hr] at h
    simp at h
  · rintro ⟨fuel, o, h⟩
    have hr : resultSet false fuel o [lookedUpWithCycle] = .error .outOfFuel := by
      simp [resultSet, collect, lookedUpWithCycle, varDecl,
        osGetenv, inspectFiles, inspect, inspectList, inspectOpt, inspectOptList, traverse,
        visit, foundGetenv, RunState.init, captureDeclaration, associateAssignment, setAdd,
        DeclarationMap.set]
      rw [getLitForIdent_self_loop _ 7 (set_same _ _ _)]
    rw [run_of_resultSet_error _ _ _ _ _ hr] at h
    simp at h

/-- Claim C10, amended: a forest whose traversal completes, in which the only node that
binds `X` is one declaration `var X = lit` and in which every lookup call (at
least one) has the identifier `X` as first argument, gives a result set with
the one entry `lit`, and `run` returns after one call of `fmt.Println`, with
the text of `lit`, quotes stripped, for every choice. -/
theorem declared_once_reported_once (fuel : Nat) (o : Oracle) (files : List Node)
    (lit : BasicLit) (x : Ident) (names : List Ident) (typ : Option Node)
    (vs specs pre post : List Node) (st : RunState)
    (hsplit : inspectFiles files =
      pre ++ .genDecl (.valueSpec (x :: names) typ (some (.basicLit lit :: vs)) :: specs) :: post)
    (honly : ∀ n ∈ pre ++ post, bindsName x.Name n = false)
    (hcalls : ∀ c ∈ lookupCalls (inspectFiles files),
      ∃ i rest, c.Args = .ident i :: rest ∧ i.Name = x.Name)
    (hk : 1 ≤ (lookupCalls (inspectFiles files)).length)
    (hret : collect false fuel o.walk files = .ok st) :
    resultSet false fuel o files = .ok [some lit] ∧
      run false fuel o files = ⟨[Trim lit.Value quote], .ok ()⟩ := by
  have hmap : st.tracker.declMap x.Name = some [.lit (some lit)] := by
    have h := hret
    unfold collect at h
    rw [hsplit] at h
    obtain ⟨st1, h1, h2⟩ := traverse_append _ _ _ _ _ _ h
    have e1 := traverse_frame x.Name _ _ _ _ _
      (fun n hn => honly n (List.mem_append_left _ hn)) h1
    simp only [traverse] at h2
    split at h2
    · cases h2
    · rename_i st2 hv
      have e3 := traverse_frame x.Name _ _ _ _ _
        (fun n hn => honly n (List.mem_append_right _ hn)) h2
      rw [e3]
      simp only [visit, Bool.false_eq_true, if_false, captureDeclaration] at hv
      cases hv
      simp only [e1, RunState.init, Option.getD_none, setAdd, List.not_mem_nil, if_false,
        List.nil_append]
      exact set_same _ _ _
  have hr : resultSet false fuel o files = .ok [some lit] := by
    rw [resultSet_of_collect_ok _ _ _ _ _ hret, collect_getenvCalls _ _ _ _ hret]
    apply resolveCalls_single_literal fuel _ x.Name lit hmap _ _ _ hcalls _ (Or.inl rfl)
    intro h0
    rw [h0] at hk
    simp at hk
  refine ⟨hr, ?_⟩
  rw [run_of_resultSet_ok _ _ _ _ _ hr]
  simp [rangeOrder_singleton, printAll]

/-- Claim C10, witness: `var X = "literal"` with two calls `os.Getenv(X)` writes
the one line `literal`. -/
theorem declared_once_reported_once_witness :
    run false 0 firstMember [lookedUpTwice] = ⟨["literal"], .ok ()⟩ := by
  cases hc : collect false 0 firstMember.walk [lookedUpTwice] with
  | error e =>
    simp [collect, lookedUpTwice, varDecl, osGetenv, inspectFiles, inspect, inspectList,
      inspectOpt, inspectOptList, traverse, visit, foundGetenv, RunState.init,
      captureDeclaration] at hc
  | ok st =>
    exact (declared_once_reported_once 0 firstMember [lookedUpTwice]
      ⟨.parsed 2, quoted "literal"⟩ ⟨1, "X"⟩ [] none [] [] [lookedUpTwice]
      ((inspectFiles [lookedUpTwice]).drop 2) st rfl (by decide)
      (by
        intro c hc'
        simp [lookedUpTwice, varDecl, osGetenv, inspectFiles, inspect, inspectList,
          inspectOpt, inspectOptList, lookupCalls, foundGetenv] at hc'
        rcases hc' with rfl | rfl <;> exact ⟨_, _, rfl, rfl⟩)
      (by decide) hc).2

/-- Claim C11: with `var x = "ONE"`, a later assignment `x = "TWO"` and one
lookup call of `x`, `run` returns and writes exactly one line, which is `ONE`
or `TWO`, for every choice of the range loops and every call depth. -/
theorem reassignment_reports_one_member (x : String) (p q : Ptr) (fuel : Nat) (o : Oracle) :
    run false fuel o [reassigned x ⟨p, quoted "ONE"⟩ ⟨q, quoted "TWO"⟩] = ⟨["ONE"], .ok ()⟩ ∨
      run false fuel o [reassigned x ⟨p, quoted "ONE"⟩ ⟨q, quoted "TWO"⟩] =
        ⟨["TWO"], .ok ()⟩ :=
  run_reassigned x ⟨p, quoted "ONE"⟩ ⟨q, quoted "TWO"⟩ fuel o

/-- Claim C12, counterexample: `os.Getenv("A")` followed by a lookup call with
a dynamic argument writes nothing, under every choice: the run aborts in the
loop over the calls, before the loop that prints. -/
theorem literal_argument_counterexample :
    run false 0 firstMember [literalThenDynamic] = ⟨[], .error todoPanic⟩ ∧
      ¬ ∃ fuel o, "A" ∈ (run false fuel o [literalThenDynamic]).stdout := by
  refine ⟨rfl, ?_⟩
  rintro ⟨fuel, o, h⟩
  rw [run_stdout_of_resultSet_error _ _ _ _ (resultSet_error_of_dynamic fuel o
    [literalThenDynamic] (.selectorExpr (.ident ⟨1, "os"⟩) ⟨2, "Getenv"⟩)
    (.callExpr (.selectorExpr (.ident ⟨3, "fmt"⟩) ⟨4, "Sprintf"⟩)
      [.basicLit ⟨.parsed 5, quoted "X"⟩]) []
    (by simp [inspectFiles, inspect, inspectList, literalThenDynamic, osGetenv]) rfl rfl)] at h
  simp at h

/-- Claim C12, amended: when `run` returns, a lookup call whose first argument is a
literal with raw text `"s"`, where `s` neither begins nor ends with a double
quote, has `s` among the texts that `run` prints; the text printed for a
literal is `strings.Trim` of its raw text, which strips every leading and
trailing double quote, however many, and nothing else. -/
theorem literal_argument_unquoted (fuel : Nat) (o : Oracle) (files : List Node) (fn : Node)
    (v : BasicLit) (rest : List Node) (s : String)
    (hin : Node.callExpr fn (.basicLit v :: rest) ∈ inspectFiles files)
    (hget : foundGetenv ⟨fn, .basicLit v :: rest⟩ = true)
    (hv : v.Value = quoted s)
    (hhead : s.data.head? ≠ some quote) (hlast : s.data.getLast? ≠ some quote)
    (hret : (run false fuel o files).status = .ok ()) :
    s ∈ (run false fuel o files).stdout ∧ lineOf (some v) = s ∧
      ∀ i j, Trim (String.mk (List.replicate i quote ++ s.data ++ List.replicate j quote)) quote
        = s := by
  obtain ⟨valMap, hr, hnil⟩ := resultSet_of_run_ok _ _ _ _ hret
  obtain ⟨st, hc, hcalls⟩ := collect_of_resultSet_ok _ _ _ _ _ hr
  rw [collect_getenvCalls _ _ _ _ hc] at hcalls
  have hmem : some v ∈ valMap :=
    resolveCalls_mem_lit _ _ _ _ _ _ hcalls ⟨fn, .basicLit v :: rest⟩
      ((mem_lookupCalls _ _ _).mpr ⟨hin, hget⟩) v rest rfl
  have hline : lineOf (some v) = s := by
    simp only [lineOf, hv]
    exact Trim_quoted s hhead hlast
  refine ⟨?_, hline, fun i j => Trim_replicate quote i j s hhead hlast⟩
  have hp := (run_of_resultSet_clean _ _ _ _ _ hr hnil).2
  rw [hp.mem_iff, ← hline]
  exact List.mem_map_of_mem lineOf hmem

/-- Claim C12, witness: `os.Getenv("FOO")` gives the line `FOO`. -/
theorem literal_argument_unquoted_witness :
    "FOO" ∈ (run false 0 firstMember [twoFoo]).stdout ∧
      lineOf (some ⟨.parsed 12, quoted "FOO"⟩) = "FOO" ∧
      ∀ i j, Trim (String.mk (List.replicate i quote ++ "FOO".data ++ List.replicate j quote))
        quote = "FOO" :=
  literal_argument_unquoted 0 firstMember [twoFoo]
    (.selectorExpr (.ident ⟨10, "os"⟩) ⟨11, "Getenv"⟩) ⟨.parsed 12, quoted "FOO"⟩ [] "FOO"
    (by simp [inspectFiles, inspect, inspectList, twoFoo, osGetenv]) rfl rfl
    (by decide) (by decide) rfl

/-- Claim C13: in dump mode the callback returns before its type switch at
every node, so for every forest the declaration map and the list of collected
calls stay empty, the result set is empty, and `run` returns without writing a
result line. -/
theorem dump_bypasses_resolution (fuel : Nat) (o : Oracle) (files : List Node) :
    (∀ (rnd : Nat → Nat) (n : Node) (st : RunState), visit true fuel rnd n st = .ok st) ∧
      collect true fuel o.walk files = .ok RunState.init ∧
      (∀ k, RunState.init.tracker.declMap k = none) ∧
      RunState.init.getenvCalls = [] ∧
      resultSet true fuel o files = .ok [] ∧
      run true fuel o files = ⟨[], .ok ()⟩ := by
  have hc : collect true fuel o.walk files = .ok RunState.init := traverse_dump _ _ _ _
  have hr : resultSet true fuel o files = .ok [] := by
    rw [resultSet_of_collect_ok _ _ _ _ _ hc]
    rfl
  refine ⟨fun rnd n st => by simp [visit], hc, fun k => rfl, rfl, hr, ?_⟩
  rw [run_of_resultSet_ok _ _ _ _ _ hr]
  rfl

/-- Claim C14, counterexample: `var x = f()` and `os.Getenv(x)`, followed by a
file with a lookup call on a dynamic argument, writes nothing, under every
choice: the placeholder text is not printed when the run aborts. -/
theorem unexpected_initializer_counterexample :
    run false 0 firstMember [callInitializer, dynamicArg] = ⟨[], .error todoPanic⟩ ∧
      ¬ ∃ fuel o, unexpectedValue "x" (.callExpr (.ident ⟨2, "f"⟩) []) ∈
        (run false fuel o [callInitializer, dynamicArg]).stdout := by
  refine ⟨rfl, ?_⟩
  rintro ⟨fuel, o, h⟩
  rw [run_stdout_of_resultSet_error _ _ _ _ (resultSet_error_of_dynamic fuel o
    [callInitializer, dynamicArg] (.selectorExpr (.ident ⟨1, "os"⟩) ⟨2, "Getenv"⟩)
    (.callExpr (.selectorExpr (.ident ⟨3, "fmt"⟩) ⟨4, "Sprintf"⟩)
      [.basicLit ⟨.parsed 5, quoted "X"⟩]) []
    (by simp [inspectFiles, inspect, inspectList, inspectOpt, inspectOptList, callInitializer,
      dynamicArg, varDecl, osGetenv]) rfl rfl)] at h
  simp at h

/-- Claim C14, amended: for a declaration of `x` whose first initializer `v`
is neither a literal nor an identifier, `captureDeclaration` returns and adds
to the value set of `x` exactly one literal, newly allocated, whose text is
the message naming `x` and the type of `v`, after the members already there
(no member of the set being at the address the allocator hands out next, as
in every state a run reaches on a parsed forest). When that declaration is
the only node of a forest that binds `x` and the run returns, a lookup call
of `x` makes `run` print the message through `strings.Trim`, which leaves the
message as it is, a type name not ending in a double quote. -/
theorem unexpected_initializer_placeholder (t : Tracker) (x : Ident) (names : List Ident)
    (typ : Option Node) (v : Node) (vs specs : List Node)
    (hdyn : v.isDynamic = true)
    (hfresh : ∀ b, ValNode.lit (some b) ∈ (t.declMap x.Name).getD [] →
      b.ptr ≠ .made t.nextLit) :
    captureDeclaration ⟨.valueSpec (x :: names) typ (some (v :: vs)) :: specs⟩ t =
        .ok ⟨t.declMap.set x.Name ((t.declMap x.Name).getD [] ++
          [.lit (some ⟨.made t.nextLit, unexpectedValue x.Name v⟩)]), t.nextLit + 1⟩ ∧
      (v.typeName.data.getLast? ≠ some quote →
        Trim (unexpectedValue x.Name v) quote = unexpectedValue x.Name v) ∧
      ∀ (fuel : Nat) (o : Oracle) (files pre post : List Node) (fn : Node) (i : Ident)
        (rest : List Node),
        inspectFiles files =
          pre ++ .genDecl (.valueSpec (x :: names) typ (some (v :: vs)) :: specs) :: post →
        (∀ n ∈ pre ++ post, bindsName x.Name n = false) →
        Node.callExpr fn (.ident i :: rest) ∈ inspectFiles files →
        foundGetenv ⟨fn, .ident i :: rest⟩ = true →
        i.Name = x.Name →
        (run false fuel o files).status = .ok () →
        Trim (unexpectedValue x.Name v) quote ∈ (run false fuel o files).stdout := by
  refine ⟨?_, Trim_unexpectedValue x.Name v, ?_⟩
  · rw [captureDeclaration_dynamic t x names typ v vs specs hdyn]
    have hnew : ValNode.lit (some ⟨.made t.nextLit, unexpectedValue x.Name v⟩) ∉
        (t.declMap x.Name).getD [] := fun hm => hfresh _ hm rfl
    simp only [setAdd, hnew, if_false]
  · intro fuel o files pre post fn i rest hsplit honly hin hget hi hret
    obtain ⟨valMap, hr, hnil⟩ := resultSet_of_run_ok _ _ _ _ hret
    obtain ⟨st, hc, hcalls⟩ := collect_of_resultSet_ok _ _ _ _ _ hr
    obtain ⟨t1, t2, hnone, hcap, hentry⟩ :=
      collect_single_binding _ _ _ x.Name _ _ _ _ hsplit honly hc
    rw [captureDeclaration_dynamic t1 x names typ v vs specs hdyn] at hcap
    cases hcap
    have hmap : st.tracker.declMap i.Name =
        some [.lit (some ⟨.made t1.nextLit, unexpectedValue x.Name v⟩)] := by
      rw [hi, hentry]
      simp [DeclarationMap.set, hnone, setAdd]
    rw [collect_getenvCalls _ _ _ _ hc] at hcalls
    have hmem := resolveCalls_mem_ident _ _ _ _ _ _ hcalls ⟨fn, .ident i :: rest⟩
      ((mem_lookupCalls _ _ _).mpr ⟨hin, hget⟩) i rest rfl _ hmap
    have hp := (run_of_resultSet_clean _ _ _ _ _ hr hnil).2
    rw [hp.mem_iff]
    exact List.mem_map_of_mem lineOf hmem

/-- Claim C14, witness: `var x = f()` on the empty map gives `x` the one
placeholder literal, and a run over that declaration and `os.Getenv(x)` writes
the message. -/
theorem unexpected_initializer_placeholder_witness :
    captureDeclaration ⟨[.valueSpec [⟨1, "x"⟩] none (some [.callExpr (.ident ⟨2, "f"⟩) []])]⟩
        ⟨fun _ => none, 0⟩ =
      .ok ⟨DeclarationMap.set (fun _ => none) "x"
        [.lit (some ⟨.made 0, "expected identifier (x) value to be either *ast.BasicLit or *ast.Ident, but got *ast.CallExpr"⟩)],
        1⟩ ∧
      run false 0 firstMember [callInitializer] =
        ⟨["expected identifier (x) value to be either *ast.BasicLit or *ast.Ident, but got *ast.CallExpr"],
          .ok ()⟩ ∧
      "expected identifier (x) value to be either *ast.BasicLit or *ast.Ident, but got *ast.CallExpr"
        ∈ (run false 0 firstMember [callInitializer]).stdout :=
  ⟨(unexpected_initializer_placeholder ⟨fun _ => none, 0⟩ ⟨1, "x"⟩ [] none
      (.callExpr (.ident ⟨2, "f"⟩) []) [] [] rfl (by
        intro b hb
        simp at hb)).1, rfl,
    (unexpected_initializer_placeholder ⟨fun _ => none, 0⟩ ⟨1, "x"⟩ [] none
      (.callExpr (.ident ⟨2, "f"⟩) []) [] [] rfl (by
        intro b hb
        simp at hb)).2.2 0 firstMember [callInitializer] [callInitializer]
      ((inspectFiles [callInitializer]).drop 2)
      (.selectorExpr (.ident ⟨3, "os"⟩) ⟨4, "Getenv"⟩) ⟨5, "x"⟩ [] rfl (by decide)
      (by simp [inspectFiles, inspect, inspectList, inspectOpt, inspectOptList,
        callInitializer, varDecl, osGetenv])
      rfl rfl rfl⟩

/-- Claim C15: an assignment whose first left-hand side is not an identifier
(or is missing), or is an identifier whose name is no key of the declaration
map, leaves the map as it is, whatever its right-hand side. -/
theorem untracked_assignment_ignored (fuel : Nat) (rnd : Nat → Nat) (asSt : AssignStmt)
    (m : DeclarationMap)
    (h : ∀ i rest, asSt.Lhs = .ident i :: rest → m i.Name = none) :
    associateAssignment fuel rnd asSt m = .ok m := by
  unfold associateAssignment
  split
  · rfl
  · rename_i lhsIdent tl hl
    rw [h lhsIdent tl hl]
  · rfl

/-- Claim C15, witness: after `var x`, the assignment `y = ` with no right-hand
side at all does not touch the map, `y` being untracked. -/
theorem untracked_assignment_ignored_witness :
    associateAssignment 0 (fun _ => 0) ⟨[.ident ⟨1, "y"⟩], []⟩ emptyX = .ok emptyX :=
  untracked_assignment_ignored 0 (fun _ => 0) ⟨[.ident ⟨1, "y"⟩], []⟩ emptyX (by
    intro i rest hl
    cases hl
    rfl)

/-- Claim C16, at the failing input `var ()`: `captureDeclaration` aborts with
an index out of range on the empty spec list, and so does a run over a file
that holds such a declaration. -/
theorem empty_group_panics (t : Tracker) (fuel : Nat) (o : Oracle) :
    captureDeclaration ⟨[]⟩ t = .error indexOutOfRange ∧
      run false fuel o [emptyGroup] = ⟨[], .error indexOutOfRange⟩ := by
  refine ⟨rfl, ?_⟩
  simp [run, resultSet, collect, emptyGroup, inspectFiles, inspect, inspectList, traverse,
    visit, captureDeclaration]

/-- Claim C17, counterexample: a file that calls `os.Getenv(X)`, a later file
with `var X = "A"` and a third file with a lookup call on a dynamic argument
write nothing, under every choice: `A` is not reported when the run aborts. -/
theorem lookup_before_declaration_counterexample :
    run false 0 firstMember [lookupFile, declFile, dynamicArg] = ⟨[], .error todoPanic⟩ ∧
      ¬ ∃ fuel o, "A" ∈ (run false fuel o [lookupFile, declFile, dynamicArg]).stdout := by
  refine ⟨rfl, ?_⟩
  rintro ⟨fuel, o, h⟩
  rw [run_stdout_of_resultSet_error _ _ _ _ (resultSet_error_of_dynamic fuel o
    [lookupFile, declFile, dynamicArg] (.selectorExpr (.ident ⟨1, "os"⟩) ⟨2, "Getenv"⟩)
    (.callExpr (.selectorExpr (.ident ⟨3, "fmt"⟩) ⟨4, "Sprintf"⟩)
      [.basicLit ⟨.parsed 5, quoted "X"⟩]) []
    (by simp [inspectFiles, inspect, inspectList, inspectOpt, inspectOptList, lookupFile,
      declFile, dynamicArg, varDecl, osGetenv]) rfl rfl)] at h
  simp at h

/-- Claim C17, amended: the calls are resolved against the declaration map reached
after the whole traversal, all files included: the result set is the loop
over the collected calls run on the final map, and in a forest whose only
node that binds `X` is `var X = lit`, a lookup call of `X` visited before
that declaration (earlier in its file or in an earlier file) still has the
text of `lit` printed by a run that returns. -/
theorem lookup_before_declaration (fuel : Nat) (o : Oracle) (files : List Node)
    (lit : BasicLit) (x : Ident) (names : List Ident) (typ : Option Node)
    (vs specs pre post : List Node) (fn : Node) (i : Ident) (rest : List Node)
    (hsplit : inspectFiles files =
      pre ++ .genDecl (.valueSpec (x :: names) typ (some (.basicLit lit :: vs)) :: specs) :: post)
    (honly : ∀ n ∈ pre ++ post, bindsName x.Name n = false)
    (hearly : Node.callExpr fn (.ident i :: rest) ∈ pre)
    (hget : foundGetenv ⟨fn, .ident i :: rest⟩ = true)
    (hi : i.Name = x.Name)
    (hret : (run false fuel o files).status = .ok ()) :
    lineOf (some lit) ∈ (run false fuel o files).stdout ∧
      ∃ st, collect false fuel o.walk files = .ok st ∧
        st.tracker.declMap x.Name = some [.lit (some lit)] ∧
        resultSet false fuel o files =
          resolveCalls fuel st.tracker.declMap o.resolve st.getenvCalls [] := by
  obtain ⟨valMap, hr, hnil⟩ := resultSet_of_run_ok _ _ _ _ hret
  obtain ⟨st, hc, hcalls⟩ := collect_of_resultSet_ok _ _ _ _ _ hr
  obtain ⟨t1, t2, hnone, hcap, hentry⟩ :=
    collect_single_binding _ _ _ x.Name _ _ _ _ hsplit honly hc
  simp only [captureDeclaration] at hcap
  cases hcap
  have hmap : st.tracker.declMap x.Name = some [.lit (some lit)] := by
    rw [hentry]
    simp [DeclarationMap.set, hnone, setAdd]
  refine ⟨?_, st, hc, hmap, resultSet_of_collect_ok _ _ _ _ _ hc⟩
  have hin : Node.callExpr fn (.ident i :: rest) ∈ inspectFiles files := by
    rw [hsplit]
    exact List.mem_append_left _ hearly
  rw [collect_getenvCalls _ _ _ _ hc] at hcalls
  have hmem := resolveCalls_mem_ident _ _ _ _ _ _ hcalls ⟨fn, .ident i :: rest⟩
    ((mem_lookupCalls _ _ _).mpr ⟨hin, hget⟩) i rest rfl (some lit) (by rw [hi, hmap])
  rw [(run_of_resultSet_clean _ _ _ _ _ hr hnil).2.mem_iff]
  exact List.mem_map_of_mem lineOf hmem

/-- Claim C17, witness: a first file that calls `os.Getenv(X)` and a second
file with `var X = "A"` give the line `A`. -/
theorem lookup_before_declaration_witness :
    run false 0 firstMember [lookupFile, declFile] = ⟨["A"], .ok ()⟩ ∧
      "A" ∈ (run false 0 firstMember [lookupFile, declFile]).stdout :=
  ⟨rfl, (lookup_before_declaration 0 firstMember [lookupFile, declFile]
    ⟨.parsed 5, quoted "A"⟩ ⟨4, "X"⟩ [] none [] []
    ((inspectFiles [lookupFile, declFile]).take 9) ((inspectFiles [lookupFile, declFile]).drop 10)
    (.selectorExpr (.ident ⟨1, "os"⟩) ⟨2, "Getenv"⟩) ⟨3, "X"⟩ [] rfl (by decide)
    (by simp [inspectFiles, inspect, inspectList, lookupFile, declFile, osGetenv])
    rfl rfl rfl).1⟩

/-- Claim C18: `captureDeclaration` changes at most the entry of the first
name of the first spec; the entry of every other key, a later name of that
spec and the names of later specs included, is what it was. -/
theorem first_name_only (decl : GenDecl) (t t' : Tracker) (k : String)
    (h : captureDeclaration decl t = .ok t')
    (hk : ∀ x names typ values specs,
      decl.Specs = .valueSpec (x :: names) typ values :: specs → k ≠ x.Name) :
    t'.declMap k = t.declMap k := by
  apply captureDeclaration_frame k decl.Specs t t' _ h
  cases hs : decl.Specs with
  | nil => rfl
  | cons s specs =>
    cases s with
    | valueSpec names typ values =>
      cases names with
      | nil => rfl
      | cons x names =>
        have := hk x names typ values specs hs
        simp [bindsName, Ne.symm this]
    | _ => rfl

/-- Claim C18, witness: `var a, b = "A", "B"` on the empty map registers `a`
and leaves `b` unregistered. -/
theorem first_name_only_witness :
    (DeclarationMap.set (fun _ => none) "a" [.lit (some ⟨.parsed 3, quoted "A"⟩)]) "a" =
        some [.lit (some ⟨.parsed 3, quoted "A"⟩)] ∧
      (DeclarationMap.set (fun _ => none) "a" [.lit (some ⟨.parsed 3, quoted "A"⟩)]) "b" =
        none :=
  ⟨rfl, first_name_only twoNames ⟨fun _ => none, 0⟩
    ⟨DeclarationMap.set (fun _ => none) "a" [.lit (some ⟨.parsed 3, quoted "A"⟩)], 0⟩ "b" rfl
    (by
      intro x names typ values specs hs
      cases hs
      decide)⟩

/-- Claim C19: on a declaration map whose identifier chains are acyclic,
`getLitForIdent` (given a call depth above the rank of the name) returns, and
what it returns is nil when the name is no key or its value set is empty, is
a member of the value set of a name reached from the name asked for whenever
it is a literal, and is exactly the member when the value set is a single
literal. -/
theorem getLitForIdent_returns_members (m : DeclarationMap) (rank : String → Nat)
    (hrank : ∀ k s i, m k = some s → ValNode.ident i ∈ s → rank i.Name < rank k)
    (fuel : Nat) (rnd : Nat → Nat) (i : Ident) (hfuel : rank i.Name < fuel) :
    ∃ r, getLitForIdent fuel rnd i m = .ok r ∧
      ((m i.Name = none ∨ m i.Name = some []) → r = none) ∧
      (∀ b, r = some b →
        ∃ k s, Reaches m i.Name k ∧ m k = some s ∧ ValNode.lit (some b) ∈ s) ∧
      (∀ p, m i.Name = some [.lit p] → r = p) := by
  obtain ⟨r, hr⟩ := getLitForIdent_ok_of_rank m rank hrank fuel rnd i hfuel
  refine ⟨r, hr, ?_, ?_, ?_⟩
  · intro hkey
    cases fuel with
    | zero => omega
    | succ fuel =>
      rcases hkey with hkey | hkey <;>
        simp [getLitForIdent, hkey] at hr <;> exact hr.symm
  · intro b hb
    subst hb
    exact getLitForIdent_mem m fuel rnd i b hr
  · intro p hp
    cases fuel with
    | zero => omega
    | succ fuel =>
      simp [getLitForIdent, hp] at hr
      exact hr.symm

/-- Claim C19, witness: on the map of `var b = "X"`, `var a = b`, looking up
`a` returns the literal of `b`, a member of the value set of a name reached
from `a`. -/
theorem getLitForIdent_returns_members_witness :
    chainRank "a" < 2 ∧
      getLitForIdent 2 (fun _ => 0) ⟨0, "a"⟩ chainMap = .ok (some ⟨.parsed 1, quoted "X"⟩) ∧
      ∃ r, getLitForIdent 2 (fun _ => 0) ⟨0, "a"⟩ chainMap = .ok r ∧
        ((chainMap "a" = none ∨ chainMap "a" = some []) → r = none) ∧
        (∀ b, r = some b →
          ∃ k s, Reaches chainMap "a" k ∧ chainMap k = some s ∧ ValNode.lit (some b) ∈ s) ∧
        (∀ p, chainMap "a" = some [.lit p] → r = p) :=
  ⟨by decide, rfl, getLitForIdent_returns_members chainMap chainRank chainMap_acyclic 2
    (fun _ => 0) ⟨0, "a"⟩ (by decide)⟩

/-- Claim C20, counterexample: one lookup call whose argument is a raw string
literal with a newline in it is one collected call and one entry of the
result set, and its one `fmt.Println` writes two lines of output. -/
theorem output_lines_counterexample :
    (lookupCalls (inspectFiles [rawLookup])).length = 1 ∧
      resultSet false 0 firstMember [rawLookup] = .ok [some ⟨.parsed 3, rawTwoLines⟩] ∧
      (run false 0 firstMember [rawLookup]).status = .ok () ∧
      (run false 0 firstMember [rawLookup]).lineCount = 2 := by
  refine ⟨rfl, rfl, rfl, by decide⟩

/-- Claim C20, amended: when `run` returns, the result set has at most as many
entries as lookup calls were collected and `run` calls `fmt.Println` once per
entry, for every choice of the range loops; the number of output lines is the
number of entries, hence at most the number of calls, when no literal of the
result set holds a newline in its text. -/
theorem at_most_one_result_per_call (dump : Bool) (fuel : Nat) (o : Oracle) (files : List Node)
    (hret : (run dump fuel o files).status = .ok ()) :
    ∃ st valMap, collect dump fuel o.walk files = .ok st ∧
      resultSet dump fuel o files = .ok valMap ∧
      valMap.length ≤ st.getenvCalls.length ∧
      (run dump fuel o files).stdout.length = valMap.length ∧
      ((∀ b, some b ∈ valMap → newline ∉ b.Value.data) →
        (run dump fuel o files).lineCount = valMap.length ∧
        (run dump fuel o files).lineCount ≤ st.getenvCalls.length) := by
  obtain ⟨valMap, hr, hnil⟩ := resultSet_of_run_ok _ _ _ _ hret
  obtain ⟨st, hc, hcalls⟩ := collect_of_resultSet_ok _ _ _ _ _ hr
  have hlen : valMap.length ≤ st.getenvCalls.length := by
    simpa using resolveCalls_length _ _ _ _ _ _ hcalls
  have hp := (run_of_resultSet_clean _ _ _ _ _ hr hnil).2
  refine ⟨st, valMap, hc, hr, hlen, by simpa using hp.length_eq, ?_⟩
  intro hnl
  have hcount : (run dump fuel o files).lineCount = valMap.length := by
    unfold RunResult.lineCount
    rw [(hp.map lineCount).sum_eq]
    exact sum_lineCount_map_lineOf valMap hnil hnl
  exact ⟨hcount, hcount ▸ hlen⟩

/-- Claim C20, witness: two lookups of one variable are two collected calls,
one entry and one line. -/
theorem at_most_one_result_per_call_witness :
    (run false 0 firstMember [lookedUpTwice]).lineCount = 1 ∧
      ∃ st valMap, collect false 0 firstMember.walk [lookedUpTwice] = .ok st ∧
        resultSet false 0 firstMember [lookedUpTwice] = .ok valMap ∧
        valMap.length ≤ st.getenvCalls.length ∧
        (run false 0 firstMember [lookedUpTwice]).stdout.length = valMap.length ∧
        ((∀ b, some b ∈ valMap → newline ∉ b.Value.data) →
          (run false 0 firstMember [lookedUpTwice]).lineCount = valMap.length ∧
          (run false 0 firstMember [lookedUpTwice]).lineCount ≤ st.getenvCalls.length) :=
  ⟨by decide, at_most_one_result_per_call false 0 firstMember [lookedUpTwice] rfl⟩

end EnvReport
